import Mathlib

/-!
Verification of the routing/dispatch core of the `golang-rest` repository
(`rest.go`).  The Go source is shallowly embedded: path strings are lists of
characters, the two regular expressions the source builds with `regexp` are
embedded as a small regex AST with an executable Brzozowski-derivative
matcher, map-valued state becomes association lists or functions, and
fallible operations return `Option`/`Except`.
-/

/-- Character class of Go's `[a-zA-Z0-9_-]` token pattern used by
`toRegexPath` (rest.go line 490). -/
def isTokenChar (c : Char) : Bool :=
  (('a' ≤ c && c ≤ 'z') || ('A' ≤ c && c ≤ 'Z') || ('0' ≤ c && c ≤ '9')
    || c == '_' || c == '-')

/-- Character class of Go's `[a-z0-9]` used inside `subPathPattern`
(rest.go line 438). -/
def lowAlnum (c : Char) : Bool :=
  (('a' ≤ c && c ≤ 'z') || ('0' ≤ c && c ≤ '9'))

/-- Characters that may occur in a path segment name: `[a-z0-9]` or `-`. -/
def segChar (c : Char) : Bool :=
  lowAlnum c || c == '-'

/-- Embedding of Go regular expressions as used by `rest.go`: empty set,
empty string, a character class, concatenation, alternation, Kleene star. -/
inductive Rx : Type where
  | emp  : Rx
  | eps  : Rx
  | cls  : (Char → Bool) → Rx
  | cat  : Rx → Rx → Rx
  | alt  : Rx → Rx → Rx
  | star : Rx → Rx

/-- `r+` (one or more). -/
def Rx.plus (a : Rx) : Rx := Rx.cat a (Rx.star a)

/-- `r?` (zero or one). -/
def Rx.opt (a : Rx) : Rx := Rx.alt Rx.eps a

/-- A single literal character. -/
def Rx.chr (c : Char) : Rx := Rx.cls (fun d => d == c)

/-- Does the regex accept the empty string? -/
def Rx.nullable : Rx → Bool
  | .emp => false
  | .eps => true
  | .cls _ => false
  | .cat a b => a.nullable && b.nullable
  | .alt a b => a.nullable || b.nullable
  | .star _ => true

/-- Brzozowski derivative of a regex by a character. -/
def Rx.deriv : Rx → Char → Rx
  | .emp, _ => .emp
  | .eps, _ => .emp
  | .cls p, c => if p c then .eps else .emp
  | .cat a b, c =>
      if a.nullable then .alt (.cat (a.deriv c) b) (b.deriv c)
      else .cat (a.deriv c) b
  | .alt a b, c => .alt (a.deriv c) (b.deriv c)
  | .star a, c => .cat (a.deriv c) (.star a)

/-- Full (anchored) match: the regex accepts the entire string. -/
def Rx.matchesFull (r : Rx) : List Char → Bool
  | [] => r.nullable
  | c :: s => (r.deriv c).matchesFull s

/-- The regex accepts some prefix of the string. -/
def Rx.matchesPre (r : Rx) : List Char → Bool
  | [] => r.nullable
  | c :: s => r.nullable || (r.deriv c).matchesPre s

/-- The regex accepts some substring of the string.  This is the semantics of
Go's `Regexp.MatchString` / package-level `regexp.MatchString` for an
unanchored pattern. -/
def Rx.matchesSub (r : Rx) : List Char → Bool
  | [] => r.nullable
  | c :: s => r.matchesPre (c :: s) || r.matchesSub s

/-- Declarative semantics: `RxMatch r s` means regex `r` matches exactly the
string `s`. -/
inductive RxMatch : Rx → List Char → Prop where
  | eps : RxMatch .eps []
  | cls {p : Char → Bool} {c : Char} : p c = true → RxMatch (.cls p) [c]
  | cat {a b : Rx} {s t : List Char} :
      RxMatch a s → RxMatch b t → RxMatch (.cat a b) (s ++ t)
  | altL {a b : Rx} {s : List Char} : RxMatch a s → RxMatch (.alt a b) s
  | altR {a b : Rx} {s : List Char} : RxMatch b s → RxMatch (.alt a b) s
  | starNil {a : Rx} : RxMatch (.star a) []
  | starCat {a : Rx} {s t : List Char} :
      RxMatch a s → RxMatch (.star a) t → RxMatch (.star a) (s ++ t)

/-! ## Embedding of the path grammar regex (rest.go `isValidPath`, lines 433-441)

The source builds `subPathPattern := [a-z0-9]+(-?[a-z0-9]+)*` and
`pathPattern := ^(/(({subPathPattern}))|(subPathPattern)))+$` (with the two
alternatives `{sub}` and `sub`), then calls `regexp.MatchString`.  Because the
pattern is anchored with `^...$`, `MatchString` decides a full-string match. -/

/-- `[a-z0-9]+(-?[a-z0-9]+)*` (rest.go line 438). -/
def subPathRx : Rx :=
  Rx.cat (Rx.plus (Rx.cls lowAlnum))
    (Rx.star (Rx.cat (Rx.opt (Rx.chr '-')) (Rx.plus (Rx.cls lowAlnum))))

/-- One `/`-led segment of the path pattern: `/(({sub})|(sub))`. -/
def segRx : Rx :=
  Rx.cat (Rx.chr '/')
    (Rx.alt (Rx.cat (Rx.chr '{') (Rx.cat subPathRx (Rx.chr '}'))) subPathRx)

/-- The whole anchored path pattern `^(/(({sub})|(sub)))+$`. -/
def pathRx : Rx := Rx.plus segRx

/-- rest.go lines 433-441: `isValidPath` returns true for the root path `/`,
otherwise matches the anchored path pattern (the `error` result of Go's
`MatchString` is always nil because the pattern is well formed, so it is
dropped in the embedding). -/
def isValidPath (path : List Char) : Bool :=
  if path = ['/'] then true else pathRx.matchesFull path

/-! ## Embedding of `toRegexPath` (rest.go lines 489-493)

The source replaces every non-greedy `\{(.+?)\}` occurrence in the template
by the token pattern `[a-zA-Z0-9_-]+` and compiles the resulting string as a
regex, with no `^`/`$` anchors.  The compiled pattern is a sequence of atoms:
literal characters and token-class-plus blocks. -/

/-- One atom of a compiled route pattern. -/
inductive PatAtom : Type where
  | lit (c : Char)
  | tok

/-- Scanning after an opening brace: Go's leftmost-shortest match of
`\{(.+?)\}` needs at least one inner character (none of them a newline,
since `.` does not match newline) followed by `}`; returns the remainder
after that closing brace, or `none` when no such close exists. -/
def afterCloseBrace : List Char → Option (List Char)
  | [] => none
  | c :: cs =>
    if c = '\n' then none
    else
      match cs with
      | [] => none
      | d :: rest => if d = '}' then some rest else afterCloseBrace cs

/-- Fuel-indexed scanner for the `\{(.+?)\}` replacement; the fuel is the
length of the scanned string (see `compileChars`). -/
def compileN : Nat → List Char → List PatAtom
  | 0, _ => []
  | _ + 1, [] => []
  | n + 1, c :: cs =>
    if c = '{' then
      match afterCloseBrace cs with
      | some rest => PatAtom.tok :: compileN n rest
      | none => PatAtom.lit c :: compileN n cs
    else PatAtom.lit c :: compileN n cs

/-- The compiled atom sequence of a route template: every `\{(.+?)\}`
occurrence becomes a token atom, all other characters stay literal. -/
def compileChars (path : List Char) : List PatAtom := compileN path.length path

/-- The regex denoted by one atom: a literal character, or
`[a-zA-Z0-9_-]+`. -/
def atomRx : PatAtom → Rx
  | .lit c => Rx.chr c
  | .tok => Rx.plus (Rx.cls isTokenChar)

/-- The regex denoted by an atom sequence (concatenation). -/
def atomsRx : List PatAtom → Rx
  | [] => Rx.eps
  | a :: rest => Rx.cat (atomRx a) (atomsRx rest)

/-- rest.go lines 489-493: the compiled (unanchored) matcher of a route
template. -/
def toRegexPath (path : List Char) : Rx := atomsRx (compileChars path)

/-! ## Path-variable extraction (rest.go lines 449-487) -/

/-- Embedding of Go's `strings.Split(s, sep)` for a one-character
separator. -/
def splitOnChar (sep : Char) : List Char → List (List Char)
  | [] => [[]]
  | c :: cs =>
    if c = sep then [] :: splitOnChar sep cs
    else
      match splitOnChar sep cs with
      | [] => [[c]]
      | p :: ps => (c :: p) :: ps

/-- Embedding of Go's `strings.Replace(s, old, new, 1)` for a one-character
`old` and empty `new`: drop the first occurrence of the character. -/
def removeFirst (target : Char) : List Char → List Char
  | [] => []
  | c :: cs => if c = target then cs else c :: removeFirst target cs

/-- rest.go lines 449-453: remove the first `}` and then the first `{`. -/
def removeBraces (key : List Char) : List Char :=
  removeFirst '{' (removeFirst '}' key)

/-- Embedding of `strings.HasPrefix(part, "{")`: the first character is an
opening brace. -/
def hasBracePre : List Char → Bool
  | [] => false
  | c :: _ => c == '{'

/-- rest.go lines 184-190: the position (index among the `/`-split parts,
minus one for the leading empty part) and name of one path variable.  The
index is an integer, as in Go. -/
structure PathVariable : Type where
  pathIndex : Int
  variableName : List Char
deriving DecidableEq

/-- The loop of `extractPathVariableNames` (rest.go lines 461-467), with the
running part index made explicit. -/
def extractPVAux : List (List Char) → Nat → List PathVariable
  | [], _ => []
  | part :: parts, partIndex =>
    if hasBracePre part then
      { pathIndex := (partIndex : Int) - 1, variableName := removeBraces part }
        :: extractPVAux parts (partIndex + 1)
    else extractPVAux parts (partIndex + 1)

/-- rest.go lines 455-474.  The source returns `nil` when no variable was
found; `nil` and the empty slice are both embedded as `[]`. -/
def extractPathVariableNames (path : List Char) : List PathVariable :=
  extractPVAux (splitOnChar '/' path) 0

/-- The loop of `extractPathVariableValues` (rest.go lines 482-485).  Go
indexes `pathParts[pathVariable.pathIndex + 1]` and panics when the index is
out of range; the panic is embedded as `none`.  The Go `map` is embedded as
the association list of bindings in loop order. -/
def extractPVVAux (pathParts : List (List Char)) :
    List PathVariable → Option (List (List Char × List Char))
  | [] => some []
  | pv :: rest =>
    if 0 ≤ pv.pathIndex + 1 ∧ pv.pathIndex + 1 < (pathParts.length : Int) then
      match extractPVVAux pathParts rest with
      | some acc =>
          some ((pv.variableName, pathParts.getD (pv.pathIndex + 1).toNat []) :: acc)
      | none => none
    else none

/-- rest.go lines 477-487. -/
def extractPathVariableValues (path : List Char) (pathVariables : List PathVariable) :
    Option (List (List Char × List Char)) :=
  extractPVVAux (splitOnChar '/' path) pathVariables

/-! ## Handler validation and registration (rest.go lines 199-316, 359-415)

Reflected Go types are embedded as a small inductive: the `rest.Http`
struct, the `rest.HttpResponse` interface, pointers, and arbitrary named
types.  A handler's reflected function type is its input and output type
lists.  Go `panic` on a configuration error is embedded as `Except.error`. -/

inductive GoType : Type where
  | httpStruct
  | httpResponseIface
  | named (name : String)
  | ptr (t : GoType)
deriving DecidableEq

/-- `reflect.Type.Kind() == reflect.Ptr`. -/
def GoType.isPtr : GoType → Bool
  | .ptr _ => true
  | _ => false

/-- `reflect.Type.Elem()`: the pointee of a pointer type.  Go panics on a
non-pointer; the only call site (rest.go line 246) is guarded by
`validateHandler`, which has already ensured a pointer, so the embedding
returns `none` on the unreachable non-pointer branch. -/
def GoType.elem : GoType → Option GoType
  | .ptr t => some t
  | _ => none

/-- The reflected type of a handler function: parameter types and result
types. -/
structure HandlerFuncType : Type where
  inTypes : List GoType
  outTypes : List GoType
deriving DecidableEq

/-- rest.go lines 359-370. -/
def isHttpMethodBodyable (httpMethod : String) : Bool :=
  httpMethod = "POST" || httpMethod = "PUT" || httpMethod = "PATCH"
    || httpMethod = "DELETE"

/-- rest.go lines 373-415: validation of a handler's declared shape against
the HTTP method; each `panic` is an `Except.error`.  (The `Kind() != Func`
check cannot arise in the embedding, where the argument is by construction
a function type.) -/
def validateHandler (httpMethod : String) (handlerFunctionType : HandlerFuncType) :
    Except String Unit :=
  if ¬(handlerFunctionType.inTypes.length = 1 ∨ handlerFunctionType.inTypes.length = 2) then
    Except.error ("handlerFunctionType must have 1 or 2 input parameters")
  else if isHttpMethodBodyable httpMethod = true ∧ handlerFunctionType.inTypes.length = 1 then
    Except.error ("handlerFunctionType for this HTTP method must have 2 parameters")
  else if isHttpMethodBodyable httpMethod = false ∧ handlerFunctionType.inTypes.length = 2 then
    Except.error ("handlerFunctionType for this HTTP method must have 1 parameters")
  else if ¬(handlerFunctionType.inTypes.getD 0 (GoType.named ("")) =
      GoType.ptr GoType.httpStruct) then
    Except.error ("parameter 1 type must be rest.Http")
  else if handlerFunctionType.inTypes.length = 2 ∧
      (handlerFunctionType.inTypes.getD 1 (GoType.named (""))).isPtr = false then
    Except.error ("parameter 2 type must be a pointer")
  else if ¬(handlerFunctionType.outTypes.length = 1) then
    Except.error ("handlerFunctionType must have 1 output parameter")
  else if ¬(handlerFunctionType.outTypes.getD 0 (GoType.named ("")) =
      GoType.httpResponseIface) then
    Except.error ("return type must be rest.HttpResponse")
  else Except.ok ()

/-- rest.go lines 208-223: the compiled-route data of a handler.  The
reflective `handlerValue` (the function itself) is abstracted away; its
invocation appears as an event in the dispatcher trace. -/
structure CustomHandlerImpl : Type where
  regexPath : Rx
  pathVariableNames : List PathVariable
  requestBodyType : Option GoType

/-- rest.go lines 262-264. -/
def CustomHandlerImpl.HasRequestBody (h : CustomHandlerImpl) : Bool :=
  h.requestBodyType.isSome

/-- rest.go lines 225-252: validate the path and the handler shape, then
build the compiled route; `requestBodyType` is the pointee of the second
parameter type when there are two parameters. -/
def NewCustomHandlerImpl (httpMethod : String) (path : List Char)
    (handlerFunctionType : HandlerFuncType) : Except String CustomHandlerImpl :=
  if isValidPath path = true then
    match validateHandler httpMethod handlerFunctionType with
    | Except.error e => Except.error e
    | Except.ok _ =>
        Except.ok
          { regexPath := toRegexPath path
            pathVariableNames := extractPathVariableNames path
            requestBodyType :=
              if handlerFunctionType.inTypes.length = 2 then
                (handlerFunctionType.inTypes.getD 1 (GoType.named (""))).elem
              else none }
  else Except.error ("assertValidPath: path did not match the path pattern")

/-- rest.go line 277: map from HTTP method to handlers in registration
order; a method with no entries maps to the empty list (Go's nil slice). -/
def Routes : Type := String → List CustomHandlerImpl

/-- rest.go lines 279-281. -/
def NewRoutes : Routes := fun _ => []

/-- rest.go lines 286-296: append the new handler to the method's list.  On
a configuration error the Go code panics before the append, so the error is
propagated and the routes are unchanged. -/
def addRoute (routes : Routes) (httpMethod : String) (path : List Char)
    (handlerFunctionType : HandlerFuncType) : Except String Routes :=
  match NewCustomHandlerImpl httpMethod path handlerFunctionType with
  | Except.error e => Except.error e
  | Except.ok handler =>
      Except.ok (fun m =>
        if m = httpMethod then routes httpMethod ++ [handler] else routes m)

/-- A whole registration phase: fold `addRoute` over a list of registration
requests starting from `NewRoutes`.  A failing registration (a Go panic)
adds nothing. -/
def registerAll (requests : List (String × List Char × HandlerFuncType)) : Routes :=
  requests.foldl
    (fun routes q =>
      match addRoute routes q.1 q.2.1 q.2.2 with
      | Except.ok routes2 => routes2
      | Except.error _ => routes)
    NewRoutes

/-! ## Response envelopes (rest.go lines 25-182)

The response sink (`http.ResponseWriter`) is embedded as the list of
operations a `write` performs on it, in order. -/

/-- One operation on the response sink. -/
inductive SinkOp : Type where
  | writeHeader (statusCode : Int)
  | setHeader (key value : String)
  | writeBody (data : List Nat)
deriving DecidableEq

/-- rest.go lines 30-36: the JSON/XML envelope; `marshal` is the external
serializer (`json.Marshal` or `xml.Marshal`), abstracted as a field. -/
structure ResponseWriter (β : Type) : Type where
  customHeaders : List (String × String)
  contentType : String
  statusCode : Int
  responseBody : β
  marshal : β → Except String (List Nat)

/-- rest.go lines 38-54: write status, content type, custom headers, then
the marshaled body; a marshal (or body-write) failure is only logged. -/
def ResponseWriter.write {β : Type} (r : ResponseWriter β) : List SinkOp :=
  SinkOp.writeHeader r.statusCode
    :: SinkOp.setHeader ("Content-Type") r.contentType
    :: (r.customHeaders.map (fun kv => SinkOp.setHeader kv.1 kv.2)
        ++ (match r.marshal r.responseBody with
            | Except.ok data => [SinkOp.writeBody data]
            | Except.error _ => []))

/-- rest.go lines 57-63: the file envelope; the `io.Reader` is embedded as
the byte stream it yields. -/
structure FileResponseWriter : Type where
  contentType : String
  statusCode : Int
  contentLength : Int
  file : List Nat
  contentDisposition : String

/-- Go's `string(i)` conversion from an integer: the UTF-8 encoding of the
code point numbered `i`, or the replacement character `�` when `i` is
not a valid code point (negative, a surrogate, or above `0x10FFFF`). -/
def goRuneString (n : Int) : String :=
  if 0 ≤ n ∧ n < 1114112 ∧ (n < 55296 ∨ 57343 < n) then
    String.mk [Char.ofNat n.toNat]
  else ("�")

/-- rest.go lines 65-78: Content-Length (only when positive, via the
`string(int)` conversion), Content-Disposition, then status, content type,
and the full stream copy; a copy failure is only logged. -/
def FileResponseWriter.write (r : FileResponseWriter) : List SinkOp :=
  (if 0 < r.contentLength then
      [SinkOp.setHeader ("Content-Length") (goRuneString r.contentLength)]
    else [])
  ++ (SinkOp.setHeader ("Content-Disposition") r.contentDisposition
      :: SinkOp.writeHeader r.statusCode
      :: SinkOp.setHeader ("Content-Type") r.contentType
      :: [SinkOp.writeBody r.file])

/-- rest.go lines 82-86. -/
structure NoContentResponseWriter : Type where
  mk ::

/-- rest.go lines 84-86: only `WriteHeader(http.StatusNoContent)`. -/
def NoContentResponseWriter.write (_ : NoContentResponseWriter) : List SinkOp :=
  [SinkOp.writeHeader 204]

/-- rest.go lines 90-94. -/
structure TextResponseWriter : Type where
  customHeaders : List (String × String)
  statusCode : Int
  responseBody : String

/-- The bytes of `[]byte(s)` (code points suffice for the embedding). -/
def strBytes (s : String) : List Nat := s.data.map Char.toNat

/-- rest.go lines 96-107. -/
def TextResponseWriter.write (r : TextResponseWriter) : List SinkOp :=
  SinkOp.writeHeader r.statusCode
    :: SinkOp.setHeader ("Content-Type") "text/plain"
    :: (r.customHeaders.map (fun kv => SinkOp.setHeader kv.1 kv.2)
        ++ [SinkOp.writeBody (strBytes r.responseBody)])

/-! ## Dispatcher (rest.go lines 318-357, 495-598)

A filter is embedded as a boolean function of the request (its own writes to
the live sink are its business and outside the dispatcher's trace).  The
per-request run of `ServeHTTP` is embedded as the list of dispatcher events
it performs, in order. -/

/-- The incoming request: method, URL path, Content-Type header and the
outcome of `ioutil.ReadAll(request.Body)`. -/
structure Request : Type where
  method : String
  path : List Char
  contentType : String
  bodyBytes : Except String (List Nat)

/-- rest.go line 318. -/
def FilterFunc : Type := Request → Bool

/-- rest.go lines 513-517. -/
structure Dispatcher : Type where
  routes : Routes
  preFilters : List FilterFunc
  postFilters : List FilterFunc

/-- The observable events of one dispatcher run. -/
inductive Event : Type where
  /-- `response.WriteHeader(404)` on route miss (rest.go line 569). -/
  | status404
  /-- invocation of the pre-filter at this position (rest.go line 576). -/
  | preFilter (i : Nat)
  /-- successful `extractPathVariableValues` (rest.go line 581). -/
  | extractVars
  /-- the out-of-range panic inside `extractPathVariableValues`. -/
  | extractVarsPanic
  /-- invocation of the matched handler (rest.go lines 585/592). -/
  | handlerCall
  /-- the envelope's write to the sink (rest.go line 272). -/
  | envelopeWrite
  /-- invocation of the post-filter at this position (rest.go line 597). -/
  | postFilter (i : Nat)
deriving DecidableEq

/-- rest.go lines 553-561, with the trace of invoked filters (tagged with
their position) made explicit next to the boolean result. -/
def executeFilters (request : Request) (tag : Nat → Event) :
    List FilterFunc → Nat → Bool × List Event
  | [], _ => (true, [])
  | f :: fs, i =>
    if f request then
      let r := executeFilters request tag fs (i + 1)
      (r.1, tag i :: r.2)
    else (false, [tag i])

/-- rest.go lines 542-551: first entry of the method's list whose matcher
accepts the called path; the 404 error is embedded as `none`. -/
def getHandler (routes : Routes) (httpMethod : String) (calledPath : List Char) :
    Option CustomHandlerImpl :=
  (routes httpMethod).find? (fun handler => handler.regexPath.matchesSub calledPath)

/-- rest.go lines 350-357: select the deserializer by content type, XML only
for exactly `application/xml`, JSON otherwise.  The two deserializers are
external collaborators, abstracted as parameters producing a value of the
declared body type. -/
def unmarshal {β : Type} (xmlUnm jsonUnm : List Nat → GoType → Except String β)
    (contentType : String) (rawData : List Nat) (bodyType : GoType) :
    Except String β :=
  if contentType = "application/xml" then xmlUnm rawData bodyType
  else jsonUnm rawData bodyType

/-- rest.go lines 495-508: read the whole body, then deserialize it into a
fresh value of the declared body type. -/
def toRequestBodyObject {β : Type} (xmlUnm jsonUnm : List Nat → GoType → Except String β)
    (request : Request) (requestBodyType : GoType) : Except String β :=
  match request.bodyBytes with
  | Except.error e => Except.error e
  | Except.ok bodyBytes =>
      unmarshal xmlUnm jsonUnm request.contentType bodyBytes requestBodyType

/-- rest.go lines 563-598: the per-request state machine, as the ordered
event trace it produces.  Route miss writes 404 and stops; a failing
pre-filter stops everything after it; path variables are extracted before
the body is read; a body read/deserialize failure stops with no write; a
successful handler invocation writes its envelope and then runs the
post-filters. -/
def ServeHTTP {β : Type} (xmlUnm jsonUnm : List Nat → GoType → Except String β)
    (dispatcher : Dispatcher) (request : Request) : List Event :=
  match getHandler dispatcher.routes request.method request.path with
  | none => [Event.status404]
  | some handler =>
    let pre := executeFilters request Event.preFilter dispatcher.preFilters 0
    if pre.1 then
      match extractPathVariableValues request.path handler.pathVariableNames with
      | none => pre.2 ++ [Event.extractVarsPanic]
      | some _ =>
        match handler.requestBodyType with
        | none =>
            pre.2 ++ [Event.extractVars, Event.handlerCall, Event.envelopeWrite]
              ++ (executeFilters request Event.postFilter dispatcher.postFilters 0).2
        | some bodyType =>
            match toRequestBodyObject xmlUnm jsonUnm request bodyType with
            | Except.error _ => pre.2 ++ [Event.extractVars]
            | Except.ok _ =>
                pre.2 ++ [Event.extractVars, Event.handlerCall, Event.envelopeWrite]
                  ++ (executeFilters request Event.postFilter dispatcher.postFilters 0).2
    else pre.2

/-! ## Claim-side vocabulary

Decomposition of a valid route template into segments, and the claims'
descriptions of the expected outputs, written from the specification's
words. -/

/-- One segment of a route template: a variable (brace-wrapped) or literal
segment with its name text. -/
structure SegD : Type where
  isVar : Bool
  name : List Char
deriving DecidableEq

/-- The text of the segment as it appears between slashes. -/
def SegD.body (g : SegD) : List Char :=
  if g.isVar then '{' :: (g.name ++ ['}']) else g.name

/-- The segment as it appears in the template, with its leading slash. -/
def SegD.render (g : SegD) : List Char := '/' :: g.body

/-- A non-root template: the concatenation of its rendered segments. -/
def rendSegs (gs : List SegD) : List Char := (gs.map SegD.render).flatten

/-- A well-formed segment: non-empty name over `[a-z0-9-]`. -/
def goodSeg (g : SegD) : Prop :=
  g.name ≠ [] ∧ ∀ c ∈ g.name, segChar c = true

/-- The specification's description of compilation output: one entry per
variable segment, in left-to-right order, whose position is the zero-based
segment index (counted from the first real segment) and whose name is the
segment text with braces stripped. -/
def claimEntries : List SegD → Nat → List PathVariable
  | [], _ => []
  | g :: gs, i =>
    if g.isVar then
      { pathIndex := (i : Int), variableName := g.name } :: claimEntries gs (i + 1)
    else claimEntries gs (i + 1)

/-- The compiled atoms of one rendered segment: the leading slash, then a
single token atom for a variable segment or the literal name characters. -/
def SegD.atoms (g : SegD) : List PatAtom :=
  PatAtom.lit '/' :: (if g.isVar then [PatAtom.tok] else g.name.map PatAtom.lit)

/-- How many `/` characters an atom forces in any match. -/
def atomSlash : PatAtom → Nat
  | .lit c => if c = '/' then 1 else 0
  | .tok => 0

/-- The claims' declared-shape rules for a handler (C3). -/
def ShapeViolation (httpMethod : String) (t : HandlerFuncType) : Prop :=
  (isHttpMethodBodyable httpMethod = true ∧ t.inTypes.length ≠ 2) ∨
  (isHttpMethodBodyable httpMethod = false ∧ t.inTypes.length ≠ 1) ∨
  t.inTypes.get? 0 ≠ some (GoType.ptr GoType.httpStruct) ∨
  (∃ u, t.inTypes.get? 1 = some u ∧ u.isPtr = false) ∨
  t.outTypes ≠ [GoType.httpResponseIface]

/-- The write order claimed by C7 for every envelope variant: status code
first, then the content-type header, then the caller-supplied custom
headers, then the body emission. -/
def claimedWriteOrder (statusCode : Int) (contentType : String)
    (customs : List (String × String)) (bodyOps : List SinkOp)
    (ops : List SinkOp) : Prop :=
  ops = SinkOp.writeHeader statusCode
    :: SinkOp.setHeader ("Content-Type") contentType
    :: (customs.map (fun kv => SinkOp.setHeader kv.1 kv.2) ++ bodyOps)

/-! ## Concrete values used by witnesses and counterexamples -/

/-- The reflected type `func(*rest.Http) rest.HttpResponse`. -/
def getHandlerType : HandlerFuncType :=
  { inTypes := [GoType.ptr GoType.httpStruct]
    outTypes := [GoType.httpResponseIface] }

/-- The reflected type `func(*rest.Http, *DemoBody) rest.HttpResponse`. -/
def postHandlerType : HandlerFuncType :=
  { inTypes := [GoType.ptr GoType.httpStruct, GoType.ptr (GoType.named ("DemoBody"))]
    outTypes := [GoType.httpResponseIface] }

/-- The compiled route a successful `POST /demo` registration stores. -/
def postDemoHandler : CustomHandlerImpl :=
  { regexPath := toRegexPath ("/demo".data)
    pathVariableNames := extractPathVariableNames ("/demo".data)
    requestBodyType := some (GoType.named ("DemoBody")) }

/-- A registry holding the single route `POST /demo`. -/
def demoRoutes : Routes := registerAll [("POST", "/demo".data, postHandlerType)]

/-- A deserializer stub for witnesses (the dispatcher claims hold for every
deserializer). -/
def errUnm : List Nat → GoType → Except String Unit := fun _ _ => Except.error ("e")

theorem rxMatch_emp_elim {s : List Char} (h : RxMatch .emp s) : False := by
  cases h

theorem rxMatch_eps_elim {s : List Char} (h : RxMatch .eps s) : s = [] := by
  cases h; rfl

theorem rxMatch_cls_elim {p : Char → Bool} {s : List Char}
    (h : RxMatch (.cls p) s) : ∃ c, s = [c] ∧ p c = true := by
  cases h with
  | cls hp => exact ⟨_, rfl, hp⟩

theorem rxMatch_cat_elim {a b : Rx} {s : List Char}
    (h : RxMatch (.cat a b) s) :
    ∃ u v, s = u ++ v ∧ RxMatch a u ∧ RxMatch b v := by
  cases h with
  | cat ha hb => exact ⟨_, _, rfl, ha, hb⟩

theorem rxMatch_alt_elim {a b : Rx} {s : List Char}
    (h : RxMatch (.alt a b) s) : RxMatch a s ∨ RxMatch b s := by
  cases h with
  | altL ha => exact Or.inl ha
  | altR hb => exact Or.inr hb

theorem rxMatch_chr_elim {c : Char} {s : List Char}
    (h : RxMatch (Rx.chr c) s) : s = [c] := by
  rcases rxMatch_cls_elim h with ⟨d, rfl, hd⟩
  simp only [beq_iff_eq] at hd
  rw [hd]

/-- `nullable` is sound and complete for matching the empty string. -/
theorem nullable_iff {r : Rx} : r.nullable = true ↔ RxMatch r [] := by
  constructor
  · intro h
    induction r with
    | emp => simp [Rx.nullable] at h
    | eps => exact RxMatch.eps
    | cls p => simp [Rx.nullable] at h
    | cat a b iha ihb =>
        simp only [Rx.nullable, Bool.and_eq_true] at h
        exact RxMatch.cat (iha h.1) (ihb h.2)
    | alt a b iha ihb =>
        simp only [Rx.nullable, Bool.or_eq_true] at h
        rcases h with h | h
        · exact RxMatch.altL (iha h)
        · exact RxMatch.altR (ihb h)
    | star a iha => exact RxMatch.starNil
  · intro h
    have aux : ∀ r s, RxMatch r s → s = [] → Rx.nullable r = true := by
      intro r s hm
      induction hm with
      | eps => intro _; rfl
      | cls hp => intro he; cases he
      | cat ha hb iha ihb =>
          intro he
          rcases List.append_eq_nil.mp he with ⟨h1, h2⟩
          simp [Rx.nullable, iha h1, ihb h2]
      | altL ha iha => intro he; simp [Rx.nullable, iha he]
      | altR hb ihb => intro he; simp [Rx.nullable, ihb he]
      | starNil => intro _; rfl
      | starCat ha hb iha ihb => intro _; rfl
    exact aux r [] h rfl

/-- Soundness of the derivative: a match of the derivative extends to a match
of the original regex with the character prepended. -/
theorem deriv_sound {r : Rx} {c : Char} {s : List Char}
    (h : RxMatch (r.deriv c) s) : RxMatch r (c :: s) := by
  induction r generalizing s with
  | emp => exact absurd h rxMatch_emp_elim
  | eps => exact absurd h rxMatch_emp_elim
  | cls p =>
      simp only [Rx.deriv] at h
      by_cases hp : p c = true
      · rw [if_pos hp] at h
        rw [rxMatch_eps_elim h]
        exact RxMatch.cls hp
      · rw [if_neg hp] at h
        exact absurd h rxMatch_emp_elim
  | cat a b iha ihb =>
      simp only [Rx.deriv] at h
      by_cases hn : a.nullable = true
      · rw [if_pos hn] at h
        rcases rxMatch_alt_elim h with h | h
        · rcases rxMatch_cat_elim h with ⟨u, v, rfl, hu, hv⟩
          exact RxMatch.cat (iha hu) hv
        · exact RxMatch.cat (a := a) (nullable_iff.mp hn) (ihb h)
      · rw [if_neg hn] at h
        rcases rxMatch_cat_elim h with ⟨u, v, rfl, hu, hv⟩
        exact RxMatch.cat (iha hu) hv
  | alt a b iha ihb =>
      simp only [Rx.deriv] at h
      rcases rxMatch_alt_elim h with h | h
      · exact RxMatch.altL (iha h)
      · exact RxMatch.altR (ihb h)
  | star a iha =>
      simp only [Rx.deriv] at h
      rcases rxMatch_cat_elim h with ⟨u, v, rfl, hu, hv⟩
      exact RxMatch.starCat (iha hu) hv

/-- Completeness of the derivative: a match starting with `c` gives a match
of the derivative by `c` on the tail. -/
theorem deriv_complete {r : Rx} {u : List Char} (h : RxMatch r u) :
    ∀ c s, u = c :: s → RxMatch (r.deriv c) s := by
  induction h with
  | eps => intro c s he; cases he
  | cls hp =>
      intro c s he
      injection he with h1 h2
      subst h1; subst h2
      simp only [Rx.deriv]
      rw [if_pos hp]
      exact RxMatch.eps
  | @cat a b s1 s2 ha hb iha ihb =>
      intro c s he
      cases s1 with
      | nil =>
          simp only [List.nil_append] at he
          simp only [Rx.deriv]
          rw [if_pos (nullable_iff.mpr ha)]
          exact RxMatch.altR (ihb c s he)
      | cons c1 s1t =>
          simp only [List.cons_append] at he
          injection he with h1 h2
          subst h1
          subst h2
          have hda := iha c1 s1t rfl
          simp only [Rx.deriv]
          by_cases hn : a.nullable = true
          · rw [if_pos hn]
            exact RxMatch.altL (RxMatch.cat hda hb)
          · rw [if_neg hn]
            exact RxMatch.cat hda hb
  | altL ha iha =>
      intro c s he
      simp only [Rx.deriv]
      exact RxMatch.altL (iha c s he)
  | altR hb ihb =>
      intro c s he
      simp only [Rx.deriv]
      exact RxMatch.altR (ihb c s he)
  | starNil => intro c s he; cases he
  | @starCat a s1 s2 ha hb iha ihb =>
      intro c s he
      cases s1 with
      | nil =>
          simp only [List.nil_append] at he
          exact ihb c s he
      | cons c1 s1t =>
          simp only [List.cons_append] at he
          injection he with h1 h2
          subst h1
          subst h2
          simp only [Rx.deriv]
          exact RxMatch.cat (iha c1 s1t rfl) hb

/-- The executable full matcher agrees with the declarative semantics. -/
theorem matchesFull_iff {r : Rx} {s : List Char} :
    r.matchesFull s = true ↔ RxMatch r s := by
  induction s generalizing r with
  | nil => exact nullable_iff
  | cons c s ih =>
      simp only [Rx.matchesFull]
      constructor
      · intro h
        exact deriv_sound (ih.mp h)
      · intro h
        exact ih.mpr (deriv_complete h c s rfl)

/-- The executable prefix matcher accepts exactly the strings having a prefix
in the regex's language. -/
theorem matchesPre_iff {r : Rx} {s : List Char} :
    r.matchesPre s = true ↔ ∃ u v, s = u ++ v ∧ RxMatch r u := by
  induction s generalizing r with
  | nil =>
      simp only [Rx.matchesPre]
      constructor
      · intro h
        exact ⟨[], [], rfl, nullable_iff.mp h⟩
      · rintro ⟨u, v, he, hm⟩
        rcases List.append_eq_nil.mp he.symm with ⟨rfl, rfl⟩
        exact nullable_iff.mpr hm
  | cons c s ih =>
      simp only [Rx.matchesPre, Bool.or_eq_true]
      constructor
      · rintro (h | h)
        · exact ⟨[], c :: s, rfl, nullable_iff.mp h⟩
        · rcases ih.mp h with ⟨u, v, he, hm⟩
          exact ⟨c :: u, v, by rw [List.cons_append, he], deriv_sound hm⟩
      · rintro ⟨u, v, he, hm⟩
        cases u with
        | nil =>
            exact Or.inl (nullable_iff.mpr hm)
        | cons c1 ut =>
            rw [List.cons_append] at he
            injection he with h1 h2
            subst h1
            exact Or.inr (ih.mpr ⟨ut, v, h2, deriv_complete hm c ut rfl⟩)

/-- The executable substring matcher accepts exactly the strings containing
some substring in the regex's language (Go `MatchString` semantics). -/
theorem matchesSub_iff {r : Rx} {s : List Char} :
    r.matchesSub s = true ↔ ∃ u v w, s = u ++ (v ++ w) ∧ RxMatch r v := by
  induction s with
  | nil =>
      simp only [Rx.matchesSub]
      constructor
      · intro h
        exact ⟨[], [], [], rfl, nullable_iff.mp h⟩
      · rintro ⟨u, v, w, he, hm⟩
        rcases List.append_eq_nil.mp he.symm with ⟨rfl, hvw⟩
        rcases List.append_eq_nil.mp hvw with ⟨rfl, rfl⟩
        exact nullable_iff.mpr hm
  | cons c s ih =>
      simp only [Rx.matchesSub, Bool.or_eq_true]
      constructor
      · rintro (h | h)
        · rcases matchesPre_iff.mp h with ⟨v, w, he, hm⟩
          exact ⟨[], v, w, by rw [List.nil_append, he], hm⟩
        · rcases ih.mp h with ⟨u, v, w, he, hm⟩
          exact ⟨c :: u, v, w, by rw [List.cons_append, he], hm⟩
      · rintro ⟨u, v, w, he, hm⟩
        cases u with
        | nil =>
            rw [List.nil_append] at he
            exact Or.inl (matchesPre_iff.mpr ⟨v, w, he, hm⟩)
        | cons c1 ut =>
            rw [List.cons_append] at he
            injection he with h1 h2
            subst h1
            exact Or.inr (ih.mpr ⟨ut, v, w, h2, hm⟩)

/-! ## Structural lemmas about star and plus -/

theorem rxStar_inv {a : Rx} {s : List Char} (h : RxMatch (.star a) s) :
    s = [] ∨ ∃ s1 s2, s = s1 ++ s2 ∧ s1 ≠ [] ∧ RxMatch a s1 ∧ RxMatch (.star a) s2 := by
  have aux : ∀ r s, RxMatch r s → ∀ b : Rx, r = .star b →
      s = [] ∨ ∃ s1 s2, s = s1 ++ s2 ∧ s1 ≠ [] ∧ RxMatch b s1 ∧ RxMatch (.star b) s2 := by
    intro r s hm
    induction hm with
    | eps => intro b he; cases he
    | cls hp => intro b he; cases he
    | cat h1 h2 ih1 ih2 => intro b he; cases he
    | altL h1 ih1 => intro b he; cases he
    | altR h1 ih1 => intro b he; cases he
    | starNil => intro b he; exact Or.inl rfl
    | @starCat a0 s1 s2 h1 h2 ih1 ih2 =>
        intro b he
        obtain rfl : a0 = b := by injection he
        by_cases hs1 : s1 = []
        · subst hs1
          simpa using ih2 a0 rfl
        · exact Or.inr ⟨s1, s2, rfl, hs1, h1, h2⟩
  exact aux _ s h a rfl

theorem rxStar_chars {a : Rx} {q : Char → Prop}
    (ha : ∀ t, RxMatch a t → ∀ c ∈ t, q c) :
    ∀ s, RxMatch (.star a) s → ∀ c ∈ s, q c := by
  have aux : ∀ r s, RxMatch r s → ∀ b : Rx, r = .star b →
      (∀ t, RxMatch b t → ∀ c ∈ t, q c) → ∀ c ∈ s, q c := by
    intro r s hm
    induction hm with
    | eps => intro b he; cases he
    | cls hp => intro b he; cases he
    | cat h1 h2 ih1 ih2 => intro b he; cases he
    | altL h1 ih1 => intro b he; cases he
    | altR h1 ih1 => intro b he; cases he
    | starNil => intro b he hb c hc; cases hc
    | @starCat a0 s1 s2 h1 h2 ih1 ih2 =>
        intro b he hb c hc
        obtain rfl : a0 = b := by injection he
        rcases List.mem_append.mp hc with hc | hc
        · exact hb s1 h1 c hc
        · exact ih2 a0 rfl hb c hc
  intro s h
  exact aux _ s h a rfl ha

theorem rxStar_parts {a : Rx} {s : List Char} (h : RxMatch (.star a) s) :
    ∃ parts : List (List Char), s = parts.flatten ∧ ∀ p ∈ parts, RxMatch a p := by
  have aux : ∀ r s, RxMatch r s → ∀ b : Rx, r = .star b →
      ∃ parts : List (List Char), s = parts.flatten ∧ ∀ p ∈ parts, RxMatch b p := by
    intro r s hm
    induction hm with
    | eps => intro b he; cases he
    | cls hp => intro b he; cases he
    | cat h1 h2 ih1 ih2 => intro b he; cases he
    | altL h1 ih1 => intro b he; cases he
    | altR h1 ih1 => intro b he; cases he
    | starNil =>
        intro b he
        exact ⟨[], rfl, by intro p hp; cases hp⟩
    | @starCat a0 s1 s2 h1 h2 ih1 ih2 =>
        intro b he
        obtain rfl : a0 = b := by injection he
        rcases ih2 a0 rfl with ⟨parts, rfl, hparts⟩
        refine ⟨s1 :: parts, by simp [List.flatten], ?_⟩
        intro p hp
        rcases List.mem_cons.mp hp with rfl | hp
        · exact h1
        · exact hparts p hp
  exact aux _ s h a rfl

theorem rxPlus_elim {a : Rx} {s : List Char} (h : RxMatch (Rx.plus a) s) :
    ∃ s1 s2, s = s1 ++ s2 ∧ RxMatch a s1 ∧ RxMatch (.star a) s2 :=
  rxMatch_cat_elim h

theorem rxPlus_intro {a : Rx} {s : List Char} (h : RxMatch a s) :
    RxMatch (Rx.plus a) s := by
  have hcat := RxMatch.cat (b := Rx.star a) h RxMatch.starNil
  simpa using hcat

/-- A match of `p+` (for a character class) is a non-empty string of
characters of the class. -/
theorem plusCls_chars {p : Char → Bool} {s : List Char}
    (h : RxMatch (Rx.plus (Rx.cls p)) s) :
    s ≠ [] ∧ ∀ c ∈ s, p c = true := by
  rcases rxPlus_elim h with ⟨s1, s2, rfl, h1, h2⟩
  rcases rxMatch_cls_elim h1 with ⟨c, rfl, hc⟩
  have hchars : ∀ d ∈ s2, p d = true := by
    refine rxStar_chars ?_ s2 h2
    intro t ht d hd
    rcases rxMatch_cls_elim ht with ⟨e, rfl, he⟩
    rcases List.mem_singleton.mp hd with rfl
    exact he
  refine ⟨by simp, ?_⟩
  intro d hd
  rcases List.mem_cons.mp hd with rfl | hd
  · exact hc
  · exact hchars d hd

/-! ## Inversion of the path grammar -/

/-- A match of `subPathPattern` is a non-empty string over `[a-z0-9-]`. -/
theorem subPath_chars {s : List Char} (h : RxMatch subPathRx s) :
    s ≠ [] ∧ ∀ c ∈ s, segChar c = true := by
  rcases rxMatch_cat_elim h with ⟨u, v, rfl, hu, hv⟩
  rcases plusCls_chars hu with ⟨hune, huc⟩
  have hvc : ∀ c ∈ v, segChar c = true := by
    refine rxStar_chars ?_ v hv
    intro t ht c hc
    rcases rxMatch_cat_elim ht with ⟨t1, t2, rfl, ht1, ht2⟩
    rcases List.mem_append.mp hc with hc | hc
    · rcases rxMatch_alt_elim ht1 with ht1 | ht1
      · rw [rxMatch_eps_elim ht1] at hc
        cases hc
      · rw [rxMatch_chr_elim ht1] at hc
        rcases List.mem_singleton.mp hc with rfl
        simp [segChar]
    · rcases plusCls_chars ht2 with ⟨_, h2c⟩
      have := h2c c hc
      simp [segChar, this]
  constructor
  · intro habs
    exact hune (List.append_eq_nil.mp habs).1
  · intro c hc
    rcases List.mem_append.mp hc with hc | hc
    · have := huc c hc
      simp [segChar, this]
    · exact hvc c hc

/-- A match of one path-pattern segment is `/{w}` or `/w` for a well-formed
segment name `w`. -/
theorem seg_elim {s : List Char} (h : RxMatch segRx s) :
    ∃ g : SegD, goodSeg g ∧ s = g.render := by
  rcases rxMatch_cat_elim h with ⟨u, v, rfl, hu, hv⟩
  rw [rxMatch_chr_elim hu]
  rcases rxMatch_alt_elim hv with hv | hv
  · rcases rxMatch_cat_elim hv with ⟨v1, v2, rfl, hv1, hv2⟩
    rcases rxMatch_cat_elim hv2 with ⟨v3, v4, rfl, hv3, hv4⟩
    rw [rxMatch_chr_elim hv1, rxMatch_chr_elim hv4]
    rcases subPath_chars hv3 with ⟨hne, hch⟩
    exact ⟨⟨true, v3⟩, ⟨hne, hch⟩, by simp [SegD.render, SegD.body]⟩
  · rcases subPath_chars hv with ⟨hne, hch⟩
    exact ⟨⟨false, v⟩, ⟨hne, hch⟩, by simp [SegD.render, SegD.body]⟩

/-- Inversion of path validity: a valid template is the root `/` or a
non-empty list of well-formed segments. -/
theorem validPath_struct {s : List Char} (h : isValidPath s = true) :
    s = ['/'] ∨ ∃ gs : List SegD, gs ≠ [] ∧ (∀ g ∈ gs, goodSeg g) ∧ s = rendSegs gs := by
  unfold isValidPath at h
  by_cases hroot : s = ['/']
  · exact Or.inl hroot
  · rw [if_neg hroot] at h
    have hm : RxMatch pathRx s := matchesFull_iff.mp h
    rcases rxPlus_elim hm with ⟨s1, s2, rfl, h1, h2⟩
    rcases rxStar_parts h2 with ⟨parts, rfl, hparts⟩
    have build : ∀ ps : List (List Char), (∀ p ∈ ps, RxMatch segRx p) →
        ∃ gs : List SegD, (∀ g ∈ gs, goodSeg g) ∧ ps.flatten = rendSegs gs := by
      intro ps
      induction ps with
      | nil =>
          intro _
          refine ⟨[], ?_, rfl⟩
          intro g hg
          cases hg
      | cons p ps ih =>
          intro hall
          rcases ih (fun q hq => hall q (List.mem_cons_of_mem p hq)) with ⟨gs, hgs, hflat⟩
          rcases seg_elim (hall p (List.mem_cons_self p ps)) with ⟨g, hg, hpr⟩
          refine ⟨g :: gs, ?_, ?_⟩
          · intro g2 hg2
            rcases List.mem_cons.mp hg2 with rfl | hg2
            · exact hg
            · exact hgs g2 hg2
          · simp only [rendSegs, List.map_cons, List.flatten_cons] at hflat ⊢
            rw [hpr, hflat]
    rcases seg_elim h1 with ⟨g1, hg1, rfl⟩
    rcases build parts hparts with ⟨gs, hgs, hflat⟩
    refine Or.inr ⟨g1 :: gs, by simp, ?_, ?_⟩
    · intro g hg
      rcases List.mem_cons.mp hg with rfl | hg
      · exact hg1
      · exact hgs g hg
    · simp [rendSegs, List.flatten]
      exact hflat

/-! ## Splitting and extraction lemmas -/

/-- A segment-name character is none of the structural characters. -/
theorem segChar_props {c : Char} (h : segChar c = true) :
    c ≠ '/' ∧ c ≠ '{' ∧ c ≠ '}' ∧ c ≠ '\n' := by
  refine ⟨?_, ?_, ?_, ?_⟩ <;> (intro he; subst he; revert h; decide)

theorem splitOnChar_ne_nil {sep : Char} {s : List Char} :
    splitOnChar sep s ≠ [] := by
  cases s with
  | nil => simp [splitOnChar]
  | cons c cs =>
      unfold splitOnChar
      by_cases hc : c = sep
      · simp [hc]
      · rw [if_neg hc]
        rcases hq : splitOnChar sep cs with _ | ⟨p, ps⟩
        · simp
        · simp

theorem splitOnChar_append {sep : Char} {xs ys : List Char}
    (hx : ∀ c ∈ xs, c ≠ sep) :
    ∀ p ps, splitOnChar sep ys = p :: ps →
      splitOnChar sep (xs ++ ys) = (xs ++ p) :: ps := by
  induction xs with
  | nil => intro p ps h; simpa using h
  | cons c xs ih =>
      intro p ps h
      have hc : c ≠ sep := hx c (List.mem_cons_self c xs)
      have hrest := ih (fun d hd => hx d (List.mem_cons_of_mem c hd)) p ps h
      show splitOnChar sep (c :: (xs ++ ys)) = ((c :: xs) ++ p) :: ps
      unfold splitOnChar
      rw [if_neg hc, hrest]
      rfl

/-- Splitting a rendered segment list on `/`: the leading empty part, then
one part per segment. -/
theorem splitOnChar_rendSegs {gs : List SegD} (hgood : ∀ g ∈ gs, goodSeg g) :
    splitOnChar '/' (rendSegs gs) = [] :: gs.map SegD.body := by
  induction gs with
  | nil => simp [rendSegs, splitOnChar]
  | cons g gs ih =>
      have hg := hgood g (List.mem_cons_self g gs)
      have hbody : ∀ c ∈ g.body, c ≠ '/' := by
        intro c hc
        unfold SegD.body at hc
        by_cases hv : g.isVar
        · rw [if_pos hv] at hc
          rcases List.mem_cons.mp hc with rfl | hc
          · decide
          · rcases List.mem_append.mp hc with hc | hc
            · exact (segChar_props (hg.2 c hc)).1
            · rcases List.mem_singleton.mp hc with rfl
              decide
        · rw [if_neg hv] at hc
          exact (segChar_props (hg.2 c hc)).1
      have ihq := ih (fun g2 hg2 => hgood g2 (List.mem_cons_of_mem g hg2))
      show splitOnChar '/' ((g.render ++ rendSegs gs : List Char)) = _
      show splitOnChar '/' (('/' :: g.body) ++ rendSegs gs) = _
      rw [List.cons_append]
      unfold splitOnChar
      rw [if_pos rfl]
      rcases hq : splitOnChar '/' (rendSegs gs) with _ | ⟨p, ps⟩
      · exact absurd hq splitOnChar_ne_nil
      · rw [ihq] at hq
        injection hq with hq1 hq2
        rw [splitOnChar_append hbody p ps (hq1 ▸ hq2 ▸ ihq)]
        rw [← hq1, ← hq2]
        simp

theorem removeFirst_append_last {c : Char} {w : List Char} (h : c ∉ w) :
    removeFirst c (w ++ [c]) = w := by
  induction w with
  | nil => simp [removeFirst]
  | cons d w ih =>
      have hd : d ≠ c := by
        intro he
        exact h (he ▸ List.mem_cons_self d w)
      show removeFirst c (d :: (w ++ [c])) = d :: w
      unfold removeFirst
      rw [if_neg hd, ih (fun hm => h (List.mem_cons_of_mem d hm))]

/-- `removeBraces` on a well-formed brace-wrapped name strips exactly the
braces. -/
theorem removeBraces_wrapped {w : List Char}
    (_h1 : '{' ∉ w) (h2 : '}' ∉ w) :
    removeBraces ('{' :: (w ++ ['}'])) = w := by
  unfold removeBraces
  have s1 : removeFirst '}' ('{' :: (w ++ ['}'])) = '{' :: w := by
    show removeFirst '}' ('{' :: (w ++ ['}'])) = '{' :: w
    unfold removeFirst
    rw [if_neg (by decide : ('{' : Char) ≠ '}'), removeFirst_append_last h2]
  rw [s1]
  unfold removeFirst
  rw [if_pos rfl]

/-- The `extractPathVariableNames` loop over the segment bodies produces
exactly the claimed entries. -/
theorem extractPVAux_bodies {gs : List SegD} (hgood : ∀ g ∈ gs, goodSeg g) :
    ∀ i : Nat, extractPVAux (gs.map SegD.body) (i + 1) = claimEntries gs i := by
  induction gs with
  | nil => intro i; rfl
  | cons g gs ih =>
      intro i
      have hg := hgood g (List.mem_cons_self g gs)
      have ihq := ih (fun g2 hg2 => hgood g2 (List.mem_cons_of_mem g hg2))
      show extractPVAux (g.body :: gs.map SegD.body) (i + 1) = claimEntries (g :: gs) i
      by_cases hv : g.isVar = true
      · have hbody : g.body = '{' :: (g.name ++ ['}']) := by
          unfold SegD.body
          rw [if_pos hv]
        unfold extractPVAux
        rw [hbody]
        rw [show hasBracePre ('{' :: (g.name ++ ['}'])) = true from by simp [hasBracePre]]
        simp only [if_pos]
        have hnb : removeBraces ('{' :: (g.name ++ ['}'])) = g.name := by
          refine removeBraces_wrapped ?_ ?_
          · intro hm
            exact absurd rfl (segChar_props (hg.2 _ hm)).2.1
          · intro hm
            exact absurd rfl (segChar_props (hg.2 _ hm)).2.2.1
        rw [hnb]
        unfold claimEntries
        rw [if_pos hv, ihq (i + 1)]
        have hidx : ((i : Int) + 1) - 1 = (i : Int) := by omega
        norm_num
      · have hbody : g.body = g.name := by
          unfold SegD.body
          rw [if_neg hv]
        have hhead : hasBracePre g.name = false := by
          rcases hn : g.name with _ | ⟨c, rest⟩
          · rfl
          · have hc : segChar c = true := hg.2 c (hn ▸ List.mem_cons_self c rest)
            have := (segChar_props hc).2.1
            simp [hasBracePre, this]
        unfold extractPVAux
        rw [hbody, hhead]
        simp only [Bool.false_eq_true, if_false]
        unfold claimEntries
        rw [if_neg hv, ihq (i + 1)]

/-- Compilation output for a whole valid template (C4 core): splitting the
rendered template gives the leading empty part, and the loop then yields the
claimed entries. -/
theorem extractNames_rendSegs {gs : List SegD} (hgood : ∀ g ∈ gs, goodSeg g) :
    extractPathVariableNames (rendSegs gs) = claimEntries gs 0 := by
  unfold extractPathVariableNames
  rw [splitOnChar_rendSegs hgood]
  show extractPVAux ([] :: gs.map SegD.body) 0 = claimEntries gs 0
  unfold extractPVAux
  rw [show hasBracePre [] = false from rfl]
  simp only [Bool.false_eq_true, if_false]
  exact extractPVAux_bodies hgood 0

/-- The claimed entry list has one entry per variable segment. -/
theorem claimEntries_length {gs : List SegD} :
    ∀ i, (claimEntries gs i).length = (gs.filter (fun g => g.isVar)).length := by
  induction gs with
  | nil => intro i; rfl
  | cons g gs ih =>
      intro i
      by_cases hv : g.isVar = true
      · unfold claimEntries
        rw [if_pos hv]
        simp [List.filter_cons, hv, ih (i + 1)]
      · unfold claimEntries
        rw [if_neg hv]
        simp only [Bool.not_eq_true] at hv
        simp [List.filter_cons, hv, ih (i + 1)]

/-- Positions of the claimed entries: between the starting index and the
index after the last segment. -/
theorem claimEntries_bounds {gs : List SegD} :
    ∀ i, ∀ pv ∈ claimEntries gs i,
      (i : Int) ≤ pv.pathIndex ∧ pv.pathIndex < (i : Int) + gs.length := by
  induction gs with
  | nil => intro i pv hpv; cases hpv
  | cons g gs ih =>
      intro i pv hpv
      by_cases hv : g.isVar = true
      · unfold claimEntries at hpv
        rw [if_pos hv] at hpv
        rcases List.mem_cons.mp hpv with rfl | hpv
        · constructor
          · exact le_refl _
          · simp only [List.length_cons]
            push_cast
            omega
        · rcases ih (i + 1) pv hpv with ⟨h1, h2⟩
          constructor
          · push_cast at h1
            omega
          · simp only [List.length_cons]
            push_cast at h2 ⊢
            omega
      · unfold claimEntries at hpv
        rw [if_neg hv] at hpv
        rcases ih (i + 1) pv hpv with ⟨h1, h2⟩
        constructor
        · push_cast at h1
          omega
        · simp only [List.length_cons]
          push_cast at h2 ⊢
          omega

/-- The number of parts of a split is the separator count plus one. -/
theorem splitOnChar_length {sep : Char} {s : List Char} :
    (splitOnChar sep s).length = s.count sep + 1 := by
  induction s with
  | nil => simp [splitOnChar]
  | cons c cs ih =>
      unfold splitOnChar
      by_cases hc : c = sep
      · subst hc
        simp [List.count_cons, ih]
      · rw [if_neg hc]
        rcases hq : splitOnChar sep cs with _ | ⟨p, ps⟩
        · exact absurd hq splitOnChar_ne_nil
        · rw [hq] at ih
          simp only [List.length_cons] at ih ⊢
          rw [List.count_cons]
          have hbeq : (c == sep) = false := by
            simp [hc]
          rw [hbeq]
          simpa using ih

/-! ## Compilation of templates to matchers -/

theorem afterCloseBrace_length (l : List Char) :
    ∀ rest, afterCloseBrace l = some rest → rest.length < l.length := by
  induction l with
  | nil => intro rest h; simp [afterCloseBrace] at h
  | cons c cs ih =>
      intro rest h
      unfold afterCloseBrace at h
      by_cases hn : c = '\n'
      · rw [if_pos hn] at h; cases h
      · rw [if_neg hn] at h
        cases cs with
        | nil => cases h
        | cons d rest2 =>
            replace h : (if d = '}' then some rest2 else afterCloseBrace (d :: rest2))
                = some rest := h
            by_cases hd : d = '}'
            · rw [if_pos hd] at h
              injection h with he
              subst he
              simp only [List.length_cons]
              omega
            · rw [if_neg hd] at h
              have := ih rest h
              simp only [List.length_cons] at this ⊢
              omega

/-- Fuel adequacy for `compileN`: any fuel at least the string length gives
the same result. -/
theorem compileN_mono :
    ∀ k l n m, l.length ≤ k → l.length ≤ n → l.length ≤ m →
      compileN n l = compileN m l := by
  intro k
  induction k with
  | zero =>
      intro l n m hk hn hm
      have : l = [] := List.length_eq_zero.mp (Nat.le_zero.mp hk)
      subst this
      cases n <;> cases m <;> rfl
  | succ k ih =>
      intro l n m hk hn hm
      cases l with
      | nil => cases n <;> cases m <;> rfl
      | cons c cs =>
          simp only [List.length_cons] at hk hn hm
          cases n with
          | zero => omega
          | succ n1 =>
              cases m with
              | zero => omega
              | succ m1 =>
                  show compileN (n1 + 1) (c :: cs) = compileN (m1 + 1) (c :: cs)
                  unfold compileN
                  by_cases hc : c = '{'
                  · rw [if_pos hc, if_pos hc]
                    rcases hq : afterCloseBrace cs with _ | rest
                    · simp only []
                      rw [ih cs n1 m1 (by omega) (by omega) (by omega)]
                    · simp only []
                      have hlt := afterCloseBrace_length cs rest hq
                      rw [ih rest n1 m1 (by omega) (by omega) (by omega)]
                  · rw [if_neg hc, if_neg hc]
                    rw [ih cs n1 m1 (by omega) (by omega) (by omega)]

theorem compileChars_cons_other {c : Char} {cs : List Char} (hc : c ≠ '{') :
    compileChars (c :: cs) = PatAtom.lit c :: compileChars cs := by
  show compileN (cs.length + 1) (c :: cs) = _
  unfold compileN
  rw [if_neg hc]
  rfl

theorem compileChars_brace_some {cs rest : List Char}
    (hq : afterCloseBrace cs = some rest) :
    compileChars ('{' :: cs) = PatAtom.tok :: compileChars rest := by
  show compileN (cs.length + 1) ('{' :: cs) = _
  unfold compileN
  rw [if_pos rfl, hq]
  simp only []
  have hlt := afterCloseBrace_length cs rest hq
  rw [compileN_mono cs.length rest cs.length rest.length (by omega) (by omega) (by omega)]
  rfl

/-- Scanning a well-formed brace-wrapped name finds exactly its closing
brace. -/
theorem afterCloseBrace_wrapped (rest : List Char) :
    ∀ w : List Char, w ≠ [] → (∀ c ∈ w, segChar c = true) →
      afterCloseBrace (w ++ '}' :: rest) = some rest := by
  intro w
  induction w with
  | nil => intro hne _; exact absurd rfl hne
  | cons c w ih =>
      intro _ hch
      have hc := hch c (List.mem_cons_self c w)
      have hneq : c ≠ '\n' := (segChar_props hc).2.2.2
      show afterCloseBrace (c :: (w ++ '}' :: rest)) = some rest
      unfold afterCloseBrace
      rw [if_neg hneq]
      cases w with
      | nil => simp
      | cons d w2 =>
          have hd : d ≠ '}' :=
            (segChar_props (hch d (List.mem_cons_of_mem c (List.mem_cons_self d w2)))).2.2.1
          show (if d = '}' then some (w2 ++ '}' :: rest)
                else afterCloseBrace (d :: (w2 ++ '}' :: rest))) = some rest
          rw [if_neg hd]
          exact ih (by simp) (fun e he => hch e (List.mem_cons_of_mem c he))

/-- Compilation leaves a brace-free block of characters literal. -/
theorem compileChars_lit_append :
    ∀ w rest : List Char, (∀ c ∈ w, c ≠ '{') →
      compileChars (w ++ rest) = w.map PatAtom.lit ++ compileChars rest := by
  intro w
  induction w with
  | nil => intro rest _; rfl
  | cons c w ih =>
      intro rest hch
      rw [List.cons_append,
        compileChars_cons_other (hch c (List.mem_cons_self c w)),
        ih rest (fun e he => hch e (List.mem_cons_of_mem c he))]
      rfl

/-- Compiling a rendered valid template yields the per-segment atoms. -/
theorem compileChars_rendSegs {gs : List SegD} (hgood : ∀ g ∈ gs, goodSeg g) :
    compileChars (rendSegs gs) = (gs.map SegD.atoms).flatten := by
  induction gs with
  | nil => rfl
  | cons g gs ih =>
      have hg := hgood g (List.mem_cons_self g gs)
      have ihq := ih (fun g2 hg2 => hgood g2 (List.mem_cons_of_mem g hg2))
      show compileChars (('/' :: g.body) ++ rendSegs gs) = _
      rw [List.cons_append,
        compileChars_cons_other (by decide : ('/' : Char) ≠ '{')]
      simp only [List.map_cons, List.flatten_cons]
      by_cases hv : g.isVar = true
      · have hbody : g.body = '{' :: (g.name ++ ['}']) := by
          unfold SegD.body
          rw [if_pos hv]
        rw [hbody]
        have hassoc : (('{' : Char) :: (g.name ++ ['}'])) ++ rendSegs gs
            = '{' :: (g.name ++ '}' :: rendSegs gs) := by
          simp
        rw [hassoc,
          compileChars_brace_some (afterCloseBrace_wrapped (rendSegs gs) g.name hg.1 hg.2),
          ihq]
        unfold SegD.atoms
        rw [if_pos hv]
        rfl
      · have hbody : g.body = g.name := by
          unfold SegD.body
          rw [if_neg hv]
        rw [hbody,
          compileChars_lit_append g.name (rendSegs gs)
            (fun c hc => (segChar_props (hg.2 c hc)).2.1),
          ihq]
        unfold SegD.atoms
        rw [if_neg hv]
        rfl

/-! ## Slash counting (safety of value extraction) -/

/-- Any string matched by an atom sequence contains exactly the slashes the
literal atoms prescribe (the token class contains no slash). -/
theorem atoms_count_slash :
    ∀ (atoms : List PatAtom) (s : List Char), RxMatch (atomsRx atoms) s →
      s.count '/' = (atoms.map atomSlash).sum := by
  intro atoms
  induction atoms with
  | nil =>
      intro s h
      rw [rxMatch_eps_elim h]
      rfl
  | cons a rest ih =>
      intro s h
      rcases rxMatch_cat_elim h with ⟨u, v, rfl, hu, hv⟩
      rw [List.count_append, ih v hv]
      simp only [List.map_cons, List.sum_cons]
      have hcu : u.count '/' = atomSlash a := by
        cases a with
        | lit c =>
            rw [rxMatch_chr_elim hu]
            by_cases hc : c = '/'
            · subst hc
              rfl
            · show List.count '/' [c] = if c = '/' then 1 else 0
              rw [if_neg hc]
              simp [List.count_cons, hc]
        | tok =>
            rcases plusCls_chars hu with ⟨hne, hch⟩
            have hns : '/' ∉ u := by
              intro hm
              have := hch '/' hm
              revert this
              decide
            rw [List.count_eq_zero.mpr hns]
            rfl
      omega

/-- The atoms of one segment force exactly one slash. -/
theorem segAtoms_slash_one {g : SegD} (hg : goodSeg g) :
    ((g.atoms.map atomSlash)).sum = 1 := by
  unfold SegD.atoms
  by_cases hv : g.isVar = true
  · rw [if_pos hv]
    rfl
  · rw [if_neg hv]
    simp only [List.map_cons, List.sum_cons]
    have h0 : ((g.name.map PatAtom.lit).map atomSlash).sum = 0 := by
      rw [List.map_map]
      refine List.sum_eq_zero ?_
      intro x hx
      rcases List.mem_map.mp hx with ⟨c, hc, rfl⟩
      show (if c = '/' then 1 else 0) = 0
      rw [if_neg (segChar_props (hg.2 c hc)).1]
    rw [h0]
    decide

/-- The compiled matcher of a rendered valid template forces exactly one
slash per segment in any string it matches. -/
theorem segAtoms_slash_sum {gs : List SegD} (hgood : ∀ g ∈ gs, goodSeg g) :
    (((gs.map SegD.atoms).flatten).map atomSlash).sum = gs.length := by
  induction gs with
  | nil => rfl
  | cons g gs ih =>
      have hg := hgood g (List.mem_cons_self g gs)
      simp only [List.map_cons, List.flatten_cons, List.map_append, List.sum_append,
        List.length_cons]
      rw [segAtoms_slash_one hg,
        ih (fun g2 hg2 => hgood g2 (List.mem_cons_of_mem g hg2))]
      omega

/-- The compiled matcher of a rendered valid template forces exactly one
slash per segment in any string it matches. -/
theorem matched_slash_count {gs : List SegD} (hgood : ∀ g ∈ gs, goodSeg g)
    {v : List Char} (h : RxMatch (toRegexPath (rendSegs gs)) v) :
    v.count '/' = gs.length := by
  unfold toRegexPath at h
  rw [compileChars_rendSegs hgood] at h
  rw [atoms_count_slash _ v h]
  exact segAtoms_slash_sum hgood

/-- Safety core: for a valid (non-root) template, every entry position is in
range for the split of any path the unanchored matcher accepts. -/
theorem entries_in_range {gs : List SegD} (hgood : ∀ g ∈ gs, goodSeg g)
    {path : List Char} (hm : (toRegexPath (rendSegs gs)).matchesSub path = true) :
    ∀ pv ∈ claimEntries gs 0,
      0 ≤ pv.pathIndex + 1 ∧ pv.pathIndex + 1 < ((splitOnChar '/' path).length : Int) := by
  rcases matchesSub_iff.mp hm with ⟨u, v, w, rfl, hv⟩
  have hcount : v.count '/' = gs.length := matched_slash_count hgood hv
  have hge : gs.length ≤ (u ++ (v ++ w)).count '/' := by
    simp only [List.count_append]
    omega
  intro pv hpv
  rcases claimEntries_bounds 0 pv hpv with ⟨h1, h2⟩
  have hlen : (splitOnChar '/' (u ++ (v ++ w))).length
      = (u ++ (v ++ w)).count '/' + 1 := splitOnChar_length
  constructor
  · omega
  · rw [hlen]
    push_cast at h2 ⊢
    omega

/-- The value-extraction loop succeeds when every position is in range. -/
theorem extractPVVAux_some {pathParts : List (List Char)} :
    ∀ pvs : List PathVariable,
      (∀ pv ∈ pvs, 0 ≤ pv.pathIndex + 1 ∧ pv.pathIndex + 1 < (pathParts.length : Int)) →
      ∃ vals, extractPVVAux pathParts pvs = some vals := by
  intro pvs
  induction pvs with
  | nil => intro _; exact ⟨[], rfl⟩
  | cons pv rest ih =>
      intro hall
      rcases ih (fun q hq => hall q (List.mem_cons_of_mem pv hq)) with ⟨vals, hvals⟩
      unfold extractPVVAux
      rw [if_pos (hall pv (List.mem_cons_self pv rest)), hvals]
      exact ⟨_, rfl⟩

/-! ## Claim theorems -/

/-- C4: for every valid template, compilation produces exactly one
`PathVariable` entry per brace-wrapped segment, in left-to-right segment
order, with the zero-based segment position (counted from the first real
segment, i.e. excluding the leading empty split part) and the braces-stripped
name — the root template has no variable entries. -/
theorem C4_compilation_entries {tpl : List Char} (hvalid : isValidPath tpl = true) :
    (tpl = ['/'] ∧ extractPathVariableNames tpl = []) ∨
    ∃ gs : List SegD, gs ≠ [] ∧ (∀ g ∈ gs, goodSeg g) ∧ tpl = rendSegs gs ∧
      extractPathVariableNames tpl = claimEntries gs 0 ∧
      (extractPathVariableNames tpl).length = (gs.filter (fun g => g.isVar)).length := by
  rcases validPath_struct hvalid with rfl | ⟨gs, hne, hgood, rfl⟩
  · exact Or.inl ⟨rfl, rfl⟩
  · refine Or.inr ⟨gs, hne, hgood, rfl, extractNames_rendSegs hgood, ?_⟩
    rw [extractNames_rendSegs hgood, claimEntries_length 0]

/-- Witness for C4 at the template `/a/{mo-ck1}` (one literal and one
variable segment). -/
theorem C4_compilation_entries_witness :
    isValidPath ("/a/{mo-ck1}".data) = true ∧
    (("/a/{mo-ck1}".data = ['/'] ∧ extractPathVariableNames ("/a/{mo-ck1}".data) = []) ∨
     ∃ gs : List SegD, gs ≠ [] ∧ (∀ g ∈ gs, goodSeg g) ∧
       "/a/{mo-ck1}".data = rendSegs gs ∧
       extractPathVariableNames ("/a/{mo-ck1}".data) = claimEntries gs 0 ∧
       (extractPathVariableNames ("/a/{mo-ck1}".data)).length
         = (gs.filter (fun g => g.isVar)).length) :=
  ⟨rfl, C4_compilation_entries rfl⟩

/-- C9: for every valid template and every path the (unanchored) compiled
matcher accepts, every recorded variable position indexes the `/`-split of
the path strictly within bounds at `position + 1`, so value extraction never
faults. -/
theorem C9_value_extraction_safe {tpl path : List Char}
    (hvalid : isValidPath tpl = true)
    (hm : (toRegexPath tpl).matchesSub path = true) :
    (∀ pv ∈ extractPathVariableNames tpl,
        0 ≤ pv.pathIndex + 1 ∧
        pv.pathIndex + 1 < ((splitOnChar '/' path).length : Int)) ∧
    ∃ vals, extractPathVariableValues path (extractPathVariableNames tpl) = some vals := by
  rcases validPath_struct hvalid with rfl | ⟨gs, hne, hgood, rfl⟩
  · have h0 : extractPathVariableNames ['/'] = [] := rfl
    rw [h0]
    constructor
    · intro pv hpv
      cases hpv
    · exact ⟨[], rfl⟩
  · rw [extractNames_rendSegs hgood]
    have hbounds := entries_in_range hgood hm
    refine ⟨hbounds, ?_⟩
    unfold extractPathVariableValues
    exact extractPVVAux_some (claimEntries gs 0) hbounds

/-- Witness for C9 at template `/a/{x}` and the longer accepted path
`/a/hello/world` (accepted by the unanchored matcher with a trailing
segment). -/
theorem C9_value_extraction_safe_witness :
    isValidPath ("/a/{x}".data) = true ∧
    (toRegexPath ("/a/{x}".data)).matchesSub ("/a/hello/world".data) = true ∧
    ((∀ pv ∈ extractPathVariableNames ("/a/{x}".data),
        0 ≤ pv.pathIndex + 1 ∧
        pv.pathIndex + 1 < ((splitOnChar '/' ("/a/hello/world".data)).length : Int)) ∧
     ∃ vals, extractPathVariableValues ("/a/hello/world".data)
        (extractPathVariableNames ("/a/{x}".data)) = some vals) :=
  ⟨rfl, rfl, C9_value_extraction_safe rfl rfl⟩

/-- C1 counterexample: the template `/a` is valid and its compiled matcher
accepts the path `/a/b` even though `/a/b` does not match the substituted
pattern as a full string — the matcher is not anchored, contradicting the
claimed if-and-only-if with a full-string match. -/
theorem C1_counterexample :
    isValidPath ("/a".data) = true ∧
    (toRegexPath ("/a".data)).matchesSub ("/a/b".data) = true ∧
    (toRegexPath ("/a".data)).matchesFull ("/a/b".data) = false :=
  ⟨rfl, rfl, rfl⟩

/-- C1 amended: for every valid route template, the compiled matcher accepts
a path iff SOME contiguous substring of the path matches the substituted
pattern in full; in particular a path having the matched text only as a
proper substring is also accepted (the matcher is unanchored). -/
theorem C1_unanchored_matcher {tpl path : List Char}
    (_hvalid : isValidPath tpl = true) :
    (toRegexPath tpl).matchesSub path = true ↔
      ∃ u v w, path = u ++ (v ++ w) ∧ (toRegexPath tpl).matchesFull v = true := by
  constructor
  · intro h
    rcases matchesSub_iff.mp h with ⟨u, v, w, he, hm⟩
    exact ⟨u, v, w, he, matchesFull_iff.mpr hm⟩
  · rintro ⟨u, v, w, he, hm⟩
    exact matchesSub_iff.mpr ⟨u, v, w, he, matchesFull_iff.mp hm⟩

/-- Witness for the amended C1 at template `/a` and path `/a/b`. -/
theorem C1_unanchored_matcher_witness :
    isValidPath ("/a".data) = true ∧
    ((toRegexPath ("/a".data)).matchesSub ("/a/b".data) = true ↔
      ∃ u v w, "/a/b".data = u ++ (v ++ w) ∧
        (toRegexPath ("/a".data)).matchesFull v = true) :=
  ⟨rfl, C1_unanchored_matcher rfl⟩

/-! ## Registry lookup and dispatcher traces -/

/-- `List.find?` returns the first element satisfying the predicate. -/
theorem find?_first {α : Type} (p : α → Bool) :
    ∀ (l : List α) (x : α), l.find? p = some x →
      ∃ i, l.get? i = some x ∧ p x = true ∧
        ∀ j, j < i → ∀ y, l.get? j = some y → p y = false := by
  intro l
  induction l with
  | nil => intro x h; cases h
  | cons a l ih =>
      intro x h
      by_cases hp : p a = true
      · rw [List.find?_cons_of_pos l hp] at h
        injection h with he
        subst he
        exact ⟨0, rfl, hp, fun j hj y hy => absurd hj (Nat.not_lt_zero j)⟩
      · rw [List.find?_cons_of_neg l hp] at h
        rcases ih x h with ⟨i, hget, hpx, hbefore⟩
        refine ⟨i + 1, by simpa using hget, hpx, ?_⟩
        intro j hj y hy
        cases j with
        | zero =>
            injection hy with he
            subst he
            exact Bool.not_eq_true _ ▸ hp
        | succ j2 =>
            exact hbefore j2 (by omega) y (by simpa using hy)

/-- The filter runner stops at the first filter returning false, having
invoked exactly the filters up to and including it. -/
theorem executeFilters_stop {request : Request} {tag : Nat → Event} :
    ∀ (fs : List FilterFunc) (i : Nat) (f : FilterFunc) (k : Nat),
      fs.get? i = some f → f request = false →
      (∀ j, j < i → ∀ g, fs.get? j = some g → g request = true) →
      executeFilters request tag fs k = (false, (List.range' k (i + 1)).map tag) := by
  intro fs
  induction fs with
  | nil => intro i f k hget _ _; cases hget
  | cons f0 fs ih =>
      intro i f k hget hf hbefore
      cases i with
      | zero =>
          injection hget with he
          subst he
          unfold executeFilters
          rw [if_neg (by simp [hf])]
          rfl
      | succ i2 =>
          have h0 : f0 request = true :=
            hbefore 0 (Nat.succ_pos i2) f0 rfl
          unfold executeFilters
          rw [if_pos (by simp [h0])]
          have ihq := ih i2 f (k + 1) (by simpa using hget) hf
            (fun j hj g hg => hbefore (j + 1) (by omega) g (by simpa using hg))
          rw [ihq]
          rfl

/-- Every event the filter runner emits is a tagged filter invocation. -/
theorem executeFilters_events {request : Request} {tag : Nat → Event} :
    ∀ (fs : List FilterFunc) (k : Nat),
      ∀ e ∈ (executeFilters request tag fs k).2, ∃ j, e = tag j := by
  intro fs
  induction fs with
  | nil => intro k e he; cases he
  | cons f0 fs ih =>
      intro k e he
      unfold executeFilters at he
      by_cases h0 : f0 request = true
      · rw [if_pos (by simp [h0])] at he
        rcases List.mem_cons.mp he with rfl | he
        · exact ⟨k, rfl⟩
        · exact ih (k + 1) e he
      · rw [if_neg (by simpa using h0)] at he
        rcases List.mem_singleton.mp he with rfl
        exact ⟨k, rfl⟩

/-- C2: lookup scans the method's entries in registration order and returns
the first whose matcher accepts the path; it returns nothing iff no entry
matches (in particular when the method has no entries), and in that case the
dispatcher writes only the 404 status: no filter and no handler runs. -/
theorem C2_first_match_lookup_and_404 {β : Type}
    (xmlUnm jsonUnm : List Nat → GoType → Except String β)
    (dispatcher : Dispatcher) (request : Request) :
    (∀ handler, getHandler dispatcher.routes request.method request.path = some handler →
       ∃ i, (dispatcher.routes request.method).get? i = some handler ∧
         handler.regexPath.matchesSub request.path = true ∧
         ∀ j, j < i → ∀ g, (dispatcher.routes request.method).get? j = some g →
           g.regexPath.matchesSub request.path = false) ∧
    (getHandler dispatcher.routes request.method request.path = none ↔
       ∀ g ∈ dispatcher.routes request.method,
         g.regexPath.matchesSub request.path = false) ∧
    (getHandler dispatcher.routes request.method request.path = none →
       ServeHTTP xmlUnm jsonUnm dispatcher request = [Event.status404]) := by
  refine ⟨?_, ?_, ?_⟩
  · intro handler h
    exact find?_first _ _ handler h
  · unfold getHandler
    rw [List.find?_eq_none]
    constructor
    · intro h g hg
      have := h g hg
      simpa using this
    · intro h g hg
      simp [h g hg]
  · intro h
    unfold ServeHTTP
    rw [h]

/-- Witness for C2: the demo registry has no GET entries, so a GET request
is answered by the 404 status alone. -/
theorem C2_first_match_lookup_and_404_witness :
    getHandler demoRoutes ("GET") ("/demo".data) = none ∧
    ServeHTTP errUnm errUnm ⟨demoRoutes, [], []⟩
      ⟨"GET", "/demo".data, "", Except.ok []⟩ = [Event.status404] :=
  ⟨rfl,
    (C2_first_match_lookup_and_404 errUnm errUnm ⟨demoRoutes, [], []⟩
      ⟨"GET", "/demo".data, "", Except.ok []⟩).2.2 rfl⟩

/-- C5: if the pre-filter at position `i` returns false and all pre-filters
before it return true, the dispatcher run consists of exactly the pre-filter
invocations `0..i`: the remaining pre-filters, the path-variable/body
binding, the handler, the envelope write and all post-filters never happen,
and the dispatcher performs no write of its own after that point. -/
theorem C5_prefilter_short_circuit {β : Type}
    (xmlUnm jsonUnm : List Nat → GoType → Except String β)
    (dispatcher : Dispatcher) (request : Request) (i : Nat) (f : FilterFunc)
    (handler : CustomHandlerImpl)
    (hhandler : getHandler dispatcher.routes request.method request.path = some handler)
    (hget : dispatcher.preFilters.get? i = some f)
    (hf : f request = false)
    (hbefore : ∀ j, j < i → ∀ g, dispatcher.preFilters.get? j = some g →
      g request = true) :
    ServeHTTP xmlUnm jsonUnm dispatcher request
      = (List.range (i + 1)).map Event.preFilter := by
  have hrun := @executeFilters_stop request Event.preFilter
    dispatcher.preFilters i f 0 hget hf hbefore
  unfold ServeHTTP
  rw [hhandler]
  simp only [hrun, Bool.false_eq_true, if_false]
  rw [List.range_eq_range']

/-- Witness for C5: one failing pre-filter stops the run after its own
invocation. -/
theorem C5_prefilter_short_circuit_witness :
    ServeHTTP errUnm errUnm ⟨demoRoutes, [fun _ => false], []⟩
      ⟨"POST", "/demo".data, "", Except.ok []⟩
      = (List.range 1).map Event.preFilter :=
  C5_prefilter_short_circuit errUnm errUnm ⟨demoRoutes, [fun _ => false], []⟩
    ⟨"POST", "/demo".data, "", Except.ok []⟩ 0 (fun _ => false) postDemoHandler
    rfl rfl rfl (fun j hj _g _hg => absurd hj (Nat.not_lt_zero j))

/-- C6: when the matched handler requires a body and reading or
deserializing the body fails, the run stops after the pre-filters and the
path-variable extraction: no write to the sink (neither a status nor a
body), no handler invocation, and no post-filter. -/
theorem C6_bind_failure_unanswered {β : Type}
    (xmlUnm jsonUnm : List Nat → GoType → Except String β)
    (dispatcher : Dispatcher) (request : Request) (handler : CustomHandlerImpl)
    (bodyType : GoType) (vals : List (List Char × List Char)) (e : String)
    (hhandler : getHandler dispatcher.routes request.method request.path = some handler)
    (hpre : (executeFilters request Event.preFilter dispatcher.preFilters 0).1 = true)
    (hvars : extractPathVariableValues request.path handler.pathVariableNames = some vals)
    (hbody : handler.requestBodyType = some bodyType)
    (hfail : toRequestBodyObject xmlUnm jsonUnm request bodyType = Except.error e) :
    ServeHTTP xmlUnm jsonUnm dispatcher request
      = (executeFilters request Event.preFilter dispatcher.preFilters 0).2
        ++ [Event.extractVars] ∧
    ∀ ev ∈ ServeHTTP xmlUnm jsonUnm dispatcher request,
      (∃ j, ev = Event.preFilter j) ∨ ev = Event.extractVars := by
  have htrace : ServeHTTP xmlUnm jsonUnm dispatcher request
      = (executeFilters request Event.preFilter dispatcher.preFilters 0).2
        ++ [Event.extractVars] := by
    unfold ServeHTTP
    rw [hhandler]
    simp only [hpre, if_true, hvars, hbody, hfail]
  refine ⟨htrace, ?_⟩
  rw [htrace]
  intro ev hev
  rcases List.mem_append.mp hev with hev | hev
  · exact Or.inl (executeFilters_events dispatcher.preFilters 0 ev hev)
  · rcases List.mem_singleton.mp hev with rfl
    exact Or.inr rfl

/-- Witness for C6: a failing body read on `POST /demo` leaves only the
extraction event (no filters are configured). -/
theorem C6_bind_failure_unanswered_witness :
    ServeHTTP errUnm errUnm ⟨demoRoutes, [], []⟩
        ⟨"POST", "/demo".data, "", Except.error ("read failure")⟩
      = (executeFilters ⟨"POST", "/demo".data, "", Except.error ("read failure")⟩
          Event.preFilter [] 0).2 ++ [Event.extractVars] :=
  (C6_bind_failure_unanswered errUnm errUnm ⟨demoRoutes, [], []⟩
    ⟨"POST", "/demo".data, "", Except.error ("read failure")⟩ postDemoHandler
    (GoType.named ("DemoBody")) [] "read failure" rfl rfl rfl rfl rfl).1

/-! ## Handler-shape validation -/

/-- `validateHandler` accepts exactly the handlers with no declared-shape
violation. -/
theorem validateHandler_ok_iff (m : String) (t : HandlerFuncType) :
    validateHandler m t = Except.ok () ↔ ¬ ShapeViolation m t := by
  by_cases c1 : (t.inTypes.length = 1 ∨ t.inTypes.length = 2)
  case neg =>
    have hval : validateHandler m t
        = Except.error ("handlerFunctionType must have 1 or 2 input parameters") := by
      unfold validateHandler
      rw [if_pos c1]
    rw [hval]
    constructor
    · intro h; simp at h
    · intro hnv
      exfalso
      apply hnv
      by_cases hb : isHttpMethodBodyable m = true
      · exact Or.inl ⟨hb, fun h2 => c1 (Or.inr h2)⟩
      · simp only [Bool.not_eq_true] at hb
        exact Or.inr (Or.inl ⟨hb, fun h2 => c1 (Or.inl h2)⟩)
  case pos =>
  by_cases c2 : (isHttpMethodBodyable m = true ∧ t.inTypes.length = 1)
  case pos =>
    have hval : validateHandler m t
        = Except.error ("handlerFunctionType for this HTTP method must have 2 parameters") := by
      unfold validateHandler
      rw [if_neg (not_not_intro c1), if_pos c2]
    rw [hval]
    constructor
    · intro h; simp at h
    · intro hnv
      exfalso
      apply hnv
      refine Or.inl ⟨c2.1, ?_⟩
      have h2 := c2.2
      omega
  case neg =>
  by_cases c3 : (isHttpMethodBodyable m = false ∧ t.inTypes.length = 2)
  case pos =>
    have hval : validateHandler m t
        = Except.error ("handlerFunctionType for this HTTP method must have 1 parameters") := by
      unfold validateHandler
      rw [if_neg (not_not_intro c1), if_neg c2, if_pos c3]
    rw [hval]
    constructor
    · intro h; simp at h
    · intro hnv
      exfalso
      apply hnv
      refine Or.inr (Or.inl ⟨c3.1, ?_⟩)
      have h2 := c3.2
      omega
  case neg =>
  by_cases c4 : (t.inTypes.getD 0 (GoType.named ("")) = GoType.ptr GoType.httpStruct)
  case neg =>
    have hval : validateHandler m t
        = Except.error ("parameter 1 type must be rest.Http") := by
      unfold validateHandler
      rw [if_neg (not_not_intro c1), if_neg c2, if_neg c3, if_pos c4]
    rw [hval]
    constructor
    · intro h; simp at h
    · intro hnv
      exfalso
      apply hnv
      refine Or.inr (Or.inr (Or.inl ?_))
      rcases hl : t.inTypes with _ | ⟨t0, rest⟩
      · rw [hl] at c1
        simp at c1
      · rw [hl, List.getD_cons_zero] at c4
        intro hc
        have : t0 = GoType.ptr GoType.httpStruct := by
          have h0 : (t0 :: rest).get? 0 = some t0 := rfl
          rw [h0] at hc
          injection hc
        exact c4 this
  case pos =>
  by_cases c5 : (t.inTypes.length = 2 ∧
      (t.inTypes.getD 1 (GoType.named (""))).isPtr = false)
  case pos =>
    have hval : validateHandler m t
        = Except.error ("parameter 2 type must be a pointer") := by
      unfold validateHandler
      rw [if_neg (not_not_intro c1), if_neg c2, if_neg c3,
        if_neg (not_not_intro c4), if_pos c5]
    rw [hval]
    constructor
    · intro h; simp at h
    · intro hnv
      exfalso
      apply hnv
      refine Or.inr (Or.inr (Or.inr (Or.inl ?_)))
      rcases hl : t.inTypes with _ | ⟨t0, rest⟩
      · rw [hl] at c5
        simp at c5
      · rcases hr : rest with _ | ⟨t1, rest2⟩
        · rw [hl, hr] at c5
          simp at c5
        · refine ⟨t1, rfl, ?_⟩
          · have h2 := c5.2
            rw [hl, hr, List.getD_cons_succ, List.getD_cons_zero] at h2
            exact h2
  case neg =>
  by_cases c6 : (t.outTypes.length = 1)
  case neg =>
    have hval : validateHandler m t
        = Except.error ("handlerFunctionType must have 1 output parameter") := by
      unfold validateHandler
      rw [if_neg (not_not_intro c1), if_neg c2, if_neg c3,
        if_neg (not_not_intro c4), if_neg c5, if_pos c6]
    rw [hval]
    constructor
    · intro h; simp at h
    · intro hnv
      exfalso
      apply hnv
      refine Or.inr (Or.inr (Or.inr (Or.inr ?_)))
      intro he
      rw [he] at c6
      simp at c6
  case pos =>
  by_cases c7 : (t.outTypes.getD 0 (GoType.named ("")) = GoType.httpResponseIface)
  case neg =>
    have hval : validateHandler m t
        = Except.error ("return type must be rest.HttpResponse") := by
      unfold validateHandler
      rw [if_neg (not_not_intro c1), if_neg c2, if_neg c3,
        if_neg (not_not_intro c4), if_neg c5, if_neg (not_not_intro c6), if_pos c7]
    rw [hval]
    constructor
    · intro h; simp at h
    · intro hnv
      exfalso
      apply hnv
      refine Or.inr (Or.inr (Or.inr (Or.inr ?_)))
      rcases hl : t.outTypes with _ | ⟨o0, rest⟩
      · rw [hl] at c6
        simp at c6
      · rcases hr : rest with _ | ⟨o1, rest2⟩
        · rw [hl, hr, List.getD_cons_zero] at c7
          intro he
          injection he with he1 he2
          exact c7 he1
        · rw [hl, hr] at c6
          simp at c6
  case pos =>
    have hval : validateHandler m t = Except.ok () := by
      unfold validateHandler
      rw [if_neg (not_not_intro c1), if_neg c2, if_neg c3,
        if_neg (not_not_intro c4), if_neg c5, if_neg (not_not_intro c6),
        if_neg (not_not_intro c7)]
    rw [hval]
    constructor
    · intro _ hv
      rcases hv with ⟨hb, hlen2⟩ | ⟨hb, hlen1⟩ | hget0 | ⟨u, hu, hup⟩ | hout
      · refine c2 ⟨hb, ?_⟩
        rcases c1 with h | h
        · exact h
        · exact absurd h hlen2
      · refine c3 ⟨hb, ?_⟩
        rcases c1 with h | h
        · exact absurd h hlen1
        · exact h
      · rcases hl : t.inTypes with _ | ⟨t0, rest⟩
        · rw [hl] at c1
          simp at c1
        · rw [hl] at hget0
          rw [hl, List.getD_cons_zero] at c4
          apply hget0
          have h0 : (t0 :: rest).get? 0 = some t0 := rfl
          rw [h0, c4]
      · rcases hl : t.inTypes with _ | ⟨t0, rest⟩
        · rw [hl] at hu
          cases hu
        · rcases hr : rest with _ | ⟨t1, rest2⟩
          · rw [hl, hr] at hu
            cases hu
          · rw [hl, hr] at hu
            have hu2 : t1 = u := by
              injection hu
            apply c5
            constructor
            · rw [hl, hr] at c1 ⊢
              simp only [List.length_cons] at c1 ⊢
              omega
            · rw [hl, hr, List.getD_cons_succ, List.getD_cons_zero, hu2]
              exact hup
      · apply hout
        rcases hl : t.outTypes with _ | ⟨o0, rest⟩
        · rw [hl] at c6
          simp at c6
        · rcases hr : rest with _ | ⟨o1, rest2⟩
          · rw [hl, hr, List.getD_cons_zero] at c7
            rw [c7]
          · rw [hl, hr] at c6
            simp at c6
    · intro _
      rfl

/-- A configuration error is raised exactly on a declared-shape violation. -/
theorem validateHandler_error_iff (m : String) (t : HandlerFuncType) :
    (∃ e, validateHandler m t = Except.error e) ↔ ShapeViolation m t := by
  constructor
  · rintro ⟨e, he⟩
    by_contra hnv
    rw [(validateHandler_ok_iff m t).mpr hnv] at he
    cases he
  · intro hv
    rcases hq : validateHandler m t with e | u
    · exact ⟨e, rfl⟩
    · cases u
      exact absurd hv ((validateHandler_ok_iff m t).mp hq)

/-- C3: for a valid route template, registration fails with a configuration
error — and the route is never added — exactly when the handler violates the
declared-shape rules (parameter count vs. bodyable method, first parameter
`*rest.Http`, pointer second parameter, single `rest.HttpResponse` result). -/
theorem C3_registration_shape_rules (m : String) (path : List Char)
    (t : HandlerFuncType) (hpath : isValidPath path = true) :
    ((∃ e, NewCustomHandlerImpl m path t = Except.error e) ↔ ShapeViolation m t) ∧
    (∀ routes : Routes,
      (∃ e, addRoute routes m path t = Except.error e) ↔ ShapeViolation m t) := by
  have hmain : (∃ e, NewCustomHandlerImpl m path t = Except.error e)
      ↔ ShapeViolation m t := by
    unfold NewCustomHandlerImpl
    rw [if_pos hpath]
    rcases hq : validateHandler m t with e | u
    · constructor
      · intro _
        exact (validateHandler_error_iff m t).mp ⟨e, hq⟩
      · intro _
        exact ⟨e, rfl⟩
    · cases u
      constructor
      · rintro ⟨e2, he2⟩
        cases he2
      · intro hv
        exact absurd hv ((validateHandler_ok_iff m t).mp hq)
  refine ⟨hmain, ?_⟩
  intro routes
  unfold addRoute
  rcases hq : NewCustomHandlerImpl m path t with e | handler
  · constructor
    · intro _
      exact hmain.mp ⟨e, hq⟩
    · intro _
      exact ⟨e, rfl⟩
  · constructor
    · rintro ⟨e2, he2⟩
      cases he2
    · intro hv
      rcases hmain.mpr hv with ⟨e2, he2⟩
      rw [hq] at he2
      cases he2

/-- Witness for C3: registering a one-parameter handler for `POST` (a
bodyable method) on the valid template `/demo` fails. -/
theorem C3_registration_shape_rules_witness :
    isValidPath ("/demo".data) = true ∧
    ((∃ e, NewCustomHandlerImpl ("POST") ("/demo".data) getHandlerType = Except.error e)
      ↔ ShapeViolation ("POST") getHandlerType) :=
  ⟨rfl, (C3_registration_shape_rules ("POST") ("/demo".data) getHandlerType rfl).1⟩

/-! ## The registry body-requirement invariant -/

/-- A successfully built handler needs a body exactly when its method is
bodyable. -/
theorem NewCustomHandlerImpl_hasBody {m : String} {path : List Char}
    {t : HandlerFuncType} {handler : CustomHandlerImpl}
    (h : NewCustomHandlerImpl m path t = Except.ok handler) :
    handler.HasRequestBody = isHttpMethodBodyable m := by
  unfold NewCustomHandlerImpl at h
  by_cases hv : isValidPath path = true
  · rw [if_pos hv] at h
    rcases hq : validateHandler m t with e | u
    · rw [hq] at h
      cases h
    · cases u
      rw [hq] at h
      injection h with he
      subst he
      have hnv := (validateHandler_ok_iff m t).mp hq
      unfold CustomHandlerImpl.HasRequestBody
      by_cases hb : isHttpMethodBodyable m = true
      · rw [hb]
        have hlen : t.inTypes.length = 2 := by
          by_contra hne
          exact hnv (Or.inl ⟨hb, hne⟩)
        rcases hl : t.inTypes with _ | ⟨t0, rest⟩
        · rw [hl] at hlen
          simp at hlen
        · rcases hr : rest with _ | ⟨t1, rest2⟩
          · rw [hl, hr] at hlen
            simp at hlen
          · have hptr : t1.isPtr = true := by
              by_contra hnp
              simp only [Bool.not_eq_true] at hnp
              exact hnv (Or.inr (Or.inr (Or.inr (Or.inl
                ⟨t1, by rw [hl, hr]; rfl, hnp⟩))))
            have hex : ∃ u2, t1 = GoType.ptr u2 := by
              cases t1 with
              | ptr x => exact ⟨x, rfl⟩
              | httpStruct => simp [GoType.isPtr] at hptr
              | httpResponseIface => simp [GoType.isPtr] at hptr
              | named nm => simp [GoType.isPtr] at hptr
            rcases hex with ⟨u2, ht1⟩
            rw [hl, hr] at hlen
            show (if (t0 :: t1 :: rest2).length = 2 then
                ((t0 :: t1 :: rest2).getD 1 (GoType.named (""))).elem else none).isSome = true
            rw [if_pos hlen, List.getD_cons_succ, List.getD_cons_zero, ht1]
            rfl
      · simp only [Bool.not_eq_true] at hb
        rw [hb]
        have hlen : t.inTypes.length = 1 := by
          by_contra hne
          exact hnv (Or.inr (Or.inl ⟨hb, hne⟩))
        show (if t.inTypes.length = 2 then
            (t.inTypes.getD 1 (GoType.named (""))).elem else none).isSome = false
        rw [if_neg (by omega)]
        rfl
  · rw [if_neg hv] at h
    cases h

/-- Membership after a successful `addRoute`: an old entry, or the newly
built handler stored under its own method. -/
theorem addRoute_mem {routes routes2 : Routes} {m : String} {path : List Char}
    {t : HandlerFuncType} {m2 : String} {handler : CustomHandlerImpl}
    (h : addRoute routes m path t = Except.ok routes2)
    (hmem : handler ∈ routes2 m2) :
    handler ∈ routes m2 ∨
      (m2 = m ∧ NewCustomHandlerImpl m path t = Except.ok handler) := by
  unfold addRoute at h
  rcases hq : NewCustomHandlerImpl m path t with e | nh
  · rw [hq] at h
    cases h
  · rw [hq] at h
    injection h with he
    subst he
    have hmem2 : handler ∈ (if m2 = m then routes m ++ [nh] else routes m2) := hmem
    by_cases hm : m2 = m
    · rw [if_pos hm] at hmem2
      rcases List.mem_append.mp hmem2 with hmem3 | hmem3
      · rw [hm]
        exact Or.inl hmem3
      · rcases List.mem_singleton.mp hmem3 with rfl
        exact Or.inr ⟨hm, rfl⟩
    · rw [if_neg hm] at hmem2
      exact Or.inl hmem2

/-- Every handler ever stored in a registry built by registrations satisfies
the body-requirement invariant. -/
theorem registerAll_hasBody (requests : List (String × List Char × HandlerFuncType)) :
    ∀ m handler, handler ∈ registerAll requests m →
      handler.HasRequestBody = isHttpMethodBodyable m := by
  have aux : ∀ (reqs : List (String × List Char × HandlerFuncType)) (routes : Routes),
      (∀ m handler, handler ∈ routes m →
        handler.HasRequestBody = isHttpMethodBodyable m) →
      ∀ m handler,
        handler ∈ reqs.foldl
          (fun routes q =>
            match addRoute routes q.1 q.2.1 q.2.2 with
            | Except.ok routes2 => routes2
            | Except.error _ => routes) routes m →
        handler.HasRequestBody = isHttpMethodBodyable m := by
    intro reqs
    induction reqs with
    | nil =>
        intro routes hinv m handler hmem
        exact hinv m handler hmem
    | cons q reqs ih =>
        intro routes hinv m handler hmem
        rw [List.foldl_cons] at hmem
        refine ih _ ?_ m handler hmem
        intro m2 h2 hm2
        rcases hq : addRoute routes q.1 q.2.1 q.2.2 with e | routes2
        · rw [hq] at hm2
          exact hinv m2 h2 hm2
        · rw [hq] at hm2
          rcases addRoute_mem hq hm2 with hold | ⟨rfl, hnew⟩
          · exact hinv m2 h2 hold
          · exact NewCustomHandlerImpl_hasBody hnew
  intro m handler hmem
  exact aux requests NewRoutes
    (fun m2 h2 hm2 => absurd hm2 (List.not_mem_nil h2)) m handler hmem

/-- C8: for every registry built by a sequence of registrations, every
stored entry's body requirement equals the bodyability of the method it is
stored under: `HasRequestBody` is true iff the method is POST, PUT, PATCH or
DELETE. -/
theorem C8_body_requirement_invariant
    (requests : List (String × List Char × HandlerFuncType)) (m : String)
    (handler : CustomHandlerImpl) (hmem : handler ∈ registerAll requests m) :
    handler.HasRequestBody = isHttpMethodBodyable m :=
  registerAll_hasBody requests m handler hmem

/-- Witness for C8: the stored `POST /demo` entry requires a body, and POST
is bodyable. -/
theorem C8_body_requirement_invariant_witness :
    postDemoHandler ∈ demoRoutes ("POST") ∧
    postDemoHandler.HasRequestBody = isHttpMethodBodyable ("POST") :=
  have hmem : postDemoHandler ∈ demoRoutes ("POST") := by
    rw [show demoRoutes ("POST") = [postDemoHandler] from rfl]
    exact List.Mem.head _
  ⟨hmem, C8_body_requirement_invariant [("POST", "/demo".data, postHandlerType)]
    "POST" postDemoHandler hmem⟩

/-! ## Response envelope write order and the Content-Length conversion -/

/-- C7 counterexample: for a concrete file envelope, the write begins with
the Content-Disposition header, not with the status code, so the claimed
uniform order (status first, then content type, then custom headers, then
body) is false for the file variant. -/
theorem C7_counterexample :
    ({ contentType := "application/pdf", statusCode := 200, contentLength := 0,
       file := [], contentDisposition := "attachment" } : FileResponseWriter).write
      = [SinkOp.setHeader ("Content-Disposition") "attachment",
         SinkOp.writeHeader 200,
         SinkOp.setHeader ("Content-Type") "application/pdf",
         SinkOp.writeBody []] ∧
    ¬ claimedWriteOrder 200 ("application/pdf") [] [SinkOp.writeBody []]
        ({ contentType := "application/pdf", statusCode := 200, contentLength := 0,
           file := [], contentDisposition := "attachment" } : FileResponseWriter).write := by
  constructor
  · rfl
  · intro hc
    unfold claimedWriteOrder at hc
    have h1 : ({ contentType := "application/pdf", statusCode := 200,
                 contentLength := 0, file := [],
                 contentDisposition := "attachment" } : FileResponseWriter).write
        = SinkOp.setHeader ("Content-Disposition") "attachment"
          :: [SinkOp.writeHeader 200,
              SinkOp.setHeader ("Content-Type") "application/pdf",
              SinkOp.writeBody []] := rfl
    rw [h1] at hc
    injection hc with h2 h3
    exact SinkOp.noConfusion h2

/-- C7 amended: the JSON/XML and text envelopes write in the claimed order
(status code, content type, custom headers, body — the body only when
marshaling succeeds); the file envelope instead sets its Content-Length
(when positive) and Content-Disposition headers BEFORE the status code,
then the content type and the full stream copy; the no-content envelope
writes only the 204 status. -/
theorem C7_write_order {β : Type} (r : ResponseWriter β) (t : TextResponseWriter)
    (f : FileResponseWriter) (n : NoContentResponseWriter) :
    claimedWriteOrder r.statusCode r.contentType r.customHeaders
      (match r.marshal r.responseBody with
        | Except.ok data => [SinkOp.writeBody data]
        | Except.error _ => []) r.write ∧
    claimedWriteOrder t.statusCode ("text/plain") t.customHeaders
      [SinkOp.writeBody (strBytes t.responseBody)] t.write ∧
    (∃ hdrOps, f.write = hdrOps
        ++ [SinkOp.writeHeader f.statusCode,
            SinkOp.setHeader ("Content-Type") f.contentType,
            SinkOp.writeBody f.file] ∧
      ∀ op ∈ hdrOps, ∃ k v, op = SinkOp.setHeader k v) ∧
    n.write = [SinkOp.writeHeader 204] := by
  refine ⟨rfl, rfl, ?_, rfl⟩
  by_cases hc : 0 < f.contentLength
  · refine ⟨[SinkOp.setHeader ("Content-Length") (goRuneString f.contentLength),
      SinkOp.setHeader ("Content-Disposition") f.contentDisposition], ?_, ?_⟩
    · unfold FileResponseWriter.write
      rw [if_pos hc]
      rfl
    · intro op hop
      rcases List.mem_cons.mp hop with rfl | hop
      · exact ⟨_, _, rfl⟩
      · rcases List.mem_singleton.mp hop with rfl
        exact ⟨_, _, rfl⟩
  · refine ⟨[SinkOp.setHeader ("Content-Disposition") f.contentDisposition], ?_, ?_⟩
    · unfold FileResponseWriter.write
      rw [if_neg hc]
      rfl
    · intro op hop
      rcases List.mem_singleton.mp hop with rfl
      exact ⟨_, _, rfl⟩

/-- C10: when `contentLength` is positive, the file envelope's write sets
the Content-Length header to `goRuneString contentLength` — Go's
`string(int)` conversion, i.e. the UTF-8 encoding of the code point numbered
by the length, not its decimal representation — and when `contentLength` is
zero or negative no Content-Length header is set at all. -/
theorem C10_content_length_rune (f : FileResponseWriter) :
    (0 < f.contentLength →
      f.write = SinkOp.setHeader ("Content-Length") (goRuneString f.contentLength)
        :: [SinkOp.setHeader ("Content-Disposition") f.contentDisposition,
            SinkOp.writeHeader f.statusCode,
            SinkOp.setHeader ("Content-Type") f.contentType,
            SinkOp.writeBody f.file]) ∧
    (f.contentLength ≤ 0 →
      ∀ v, SinkOp.setHeader ("Content-Length") v ∉ f.write) := by
  constructor
  · intro hc
    unfold FileResponseWriter.write
    rw [if_pos hc]
    rfl
  · intro hc v hmem
    unfold FileResponseWriter.write at hmem
    rw [if_neg (by omega)] at hmem
    simp at hmem

/-- Witness for C10 at `contentLength = 65`: the header value is `"A"` (the
UTF-8 of code point 65), not the decimal string `"65"`. -/
theorem C10_content_length_rune_witness :
    ({ contentType := "text/plain", statusCode := 200, contentLength := 65,
       file := [7], contentDisposition := "inline" } : FileResponseWriter).write
      = SinkOp.setHeader ("Content-Length") "A"
        :: [SinkOp.setHeader ("Content-Disposition") "inline",
            SinkOp.writeHeader 200,
            SinkOp.setHeader ("Content-Type") "text/plain",
            SinkOp.writeBody [7]] ∧
    goRuneString 65 ≠ "65" := by
  constructor
  · have h := (C10_content_length_rune
      { contentType := "text/plain", statusCode := 200, contentLength := 65,
        file := [7], contentDisposition := "inline" }).1 (by decide)
    rw [h]
    rfl
  · decide
